import Mathlib

/-!
Verification of the consensus-and-chunk core of this repository against its
natural-language specification.  The Rust sources are shallowly embedded:

* `chain/epoch-manager/src/validator_selection.rs` — validator selection
  (`proposals_with_rollover`, `order_proposals`, `select_validators`,
  `proposals_to_epoch_info`).
* `chain/client/src/client.rs` — block production bookkeeping
  (`can_produce_block`, `produce_block_on`), block reception
  (`check_block_height`, `receive_block_impl`, `verify_and_rebroadcast_block`)
  and transaction-pool reconciliation.
* `tools/flat-storage/src/commands.rs` — the flat-storage `verify` command.

Machine integers (`u128`, `u64`) are modelled as `Nat`; none of the verified
properties depend on wrap-around, and `num_rational::Ratio` comparisons are
translated to cross-multiplication over `Nat`.  Fallible or panicking code
paths are modelled with `Option`.  External collaborators (chain store, epoch
manager, shard tracker, …) are supplied as explicit environment records.
-/

namespace NearCore

/-! ## Shared data model -/

abbrev AccountId := String

abbrev Balance := Nat

/-- `ValidatorStake` from `near_primitives`: the public key plays no role in
any verified property and is omitted. -/
structure ValidatorStake where
  account_id : AccountId
  stake : Balance
deriving DecidableEq, Repr

/-- A non-negative rational `num / den`, the model of `Ratio<u128>` for
`minimum_stake_ratio`.  `Ratio` comparisons are by cross-multiplication. -/
structure RatioN where
  num : Nat
  den : Nat
deriving DecidableEq, Repr

/-- Ceiling division, the model of `Ratio::ceil().to_integer()` applied to
`a / b` (fraction reduction does not change the value). -/
def ceilDivN (a b : Nat) : Nat := (a + b - 1) / b

/-! ## Account-id ordering

Rust's `Ord for AccountId` compares the underlying strings byte-wise;
UTF-8 byte order coincides with code-point order, modelled here
lexicographically over `String.data` (Lean's built-in `String` order is not
kernel-reducible). -/

/-- Strict lexicographic order on character lists. -/
def accountLtB : List Char → List Char → Bool
  | _, [] => false
  | [], _ :: _ => true
  | a :: as, b :: bs =>
    if a.toNat < b.toNat then true
    else if b.toNat < a.toNat then false
    else accountLtB as bs

/-- Reflexive lexicographic order on character lists. -/
def accountLeB : List Char → List Char → Bool
  | [], _ => true
  | _ :: _, [] => false
  | a :: as, b :: bs =>
    if a.toNat < b.toNat then true
    else if b.toNat < a.toNat then false
    else accountLeB as bs

/-- `a ≤ b` on account ids. -/
def accLe (a b : AccountId) : Prop := accountLeB a.data b.data = true

/-- `a < b` on account ids. -/
def accLt (a b : AccountId) : Prop := accountLtB a.data b.data = true

theorem accountLeB_total (a b : List Char) :
    accountLeB a b = true ∨ accountLeB b a = true := by
  induction a generalizing b with
  | nil => exact Or.inl rfl
  | cons x xs ih =>
    cases b with
    | nil => exact Or.inr rfl
    | cons y ys =>
      rcases Nat.lt_trichotomy x.toNat y.toNat with h | h | h
      · left; simp [accountLeB, h]
      · rcases ih ys with h' | h' <;>
          simp [accountLeB, h, Nat.lt_irrefl, h']
      · right; simp [accountLeB, h]

theorem accountLeB_trans (a b c : List Char) (hab : accountLeB a b = true)
    (hbc : accountLeB b c = true) : accountLeB a c = true := by
  induction a generalizing b c with
  | nil => rfl
  | cons x xs ih =>
    cases b with
    | nil => simp [accountLeB] at hab
    | cons y ys =>
      cases c with
      | nil => simp [accountLeB] at hbc
      | cons z zs =>
        simp only [accountLeB] at hab hbc ⊢
        rcases Nat.lt_trichotomy x.toNat y.toNat with h1 | h1 | h1 <;>
          rcases Nat.lt_trichotomy y.toNat z.toNat with h2 | h2 | h2 <;>
          simp [h1, h2, Nat.lt_irrefl, Nat.lt_asymm] at hab hbc ⊢ <;>
          try omega
        · exact ih ys zs hab hbc

theorem accountLeB_lt_or_eq (a b : List Char) (h : accountLeB a b = true) :
    accountLtB a b = true ∨ a = b := by
  induction a generalizing b with
  | nil =>
    cases b with
    | nil => exact Or.inr rfl
    | cons y ys => left; rfl
  | cons x xs ih =>
    cases b with
    | nil => simp [accountLeB] at h
    | cons y ys =>
      simp only [accountLeB, accountLtB] at h ⊢
      rcases Nat.lt_trichotomy x.toNat y.toNat with h1 | h1 | h1
      · left; simp [h1]
      · have hxy : x = y := Char.ext (UInt32.ext h1)
        simp [h1, Nat.lt_irrefl] at h ⊢
        rcases ih ys h with h' | h'
        · exact Or.inl h'
        · exact Or.inr ⟨hxy, h'⟩
      · simp [h1, Nat.lt_asymm h1, Nat.lt_irrefl] at h

/-! ## Validator selection: ordering

`OrderedValidatorStake` is ordered by the key `(stake, Reverse(account_id))`
and stored in a max-heap, so the validator with the largest stake — and, on a
stake tie, the lexicographically smallest account id — pops first.
`popsFirst a b` says that `a` pops no later than `b`; `popsBefore` is the
strict version (stake strictly larger, or equal stake and account id
strictly smaller). -/

def popsFirst (a b : ValidatorStake) : Prop :=
  b.stake < a.stake ∨ (a.stake = b.stake ∧ accLe a.account_id b.account_id)

def popsBefore (a b : ValidatorStake) : Prop :=
  b.stake < a.stake ∨ (a.stake = b.stake ∧ accLt a.account_id b.account_id)

instance : DecidableRel popsFirst := fun a b =>
  inferInstanceAs (Decidable (b.stake < a.stake ∨
    (a.stake = b.stake ∧ accountLeB a.account_id.data b.account_id.data =
      true)))

instance : DecidableRel popsBefore := fun a b =>
  inferInstanceAs (Decidable (b.stake < a.stake ∨
    (a.stake = b.stake ∧ accountLtB a.account_id.data b.account_id.data =
      true)))

instance : IsTotal ValidatorStake popsFirst where
  total a b := by
    rcases Nat.lt_trichotomy a.stake b.stake with h | h | h
    · exact Or.inr (Or.inl h)
    · rcases accountLeB_total a.account_id.data b.account_id.data with h' | h'
      · exact Or.inl (Or.inr ⟨h, h'⟩)
      · exact Or.inr (Or.inr ⟨h.symm, h'⟩)
    · exact Or.inl (Or.inl h)

instance : IsTrans ValidatorStake popsFirst where
  trans a b c hab hbc := by
    rcases hab with h1 | ⟨h1, h1'⟩
    · rcases hbc with h2 | ⟨h2, _⟩
      · exact Or.inl (h2.trans h1)
      · exact Or.inl (h2 ▸ h1)
    · rcases hbc with h2 | ⟨h2, h2'⟩
      · exact Or.inl (h1.symm ▸ h2)
      · exact Or.inr ⟨h1.trans h2, accountLeB_trans _ _ _ h1' h2'⟩

/-- A `popsFirst` pair with distinct account ids is a `popsBefore` pair. -/
theorem popsBefore_of_popsFirst {a b : ValidatorStake}
    (h : popsFirst a b) (hne : a.account_id ≠ b.account_id) :
    popsBefore a b := by
  rcases h with h | ⟨h, h'⟩
  · exact Or.inl h
  · rcases accountLeB_lt_or_eq _ _ h' with h'' | h''
    · exact Or.inr ⟨h, h''⟩
    · exact absurd (String.ext h'') hne

/-- `order_proposals`: collecting the proposals into the `BinaryHeap` whose
pop sequence is exactly the `popsFirst`-sorted order.  The heap is modelled
by that pop sequence (heap contents determine it uniquely because account
ids of the proposals are distinct). -/
def order_proposals (proposals : List ValidatorStake) : List ValidatorStake :=
  List.insertionSort popsFirst proposals

/-! ## Validator selection: `select_validators` -/

/-- The selection loop of `select_validators`: pop up to `fuel` proposals,
accepting each `p` only while `Ratio::new(p.stake, total + p.stake) >
min_stake_ratio`; the first rejected proposal is returned to the heap and the
loop stops.  `Ratio::new` panics on a zero denominator (`total + p.stake = 0`),
modelled by `none`.  Returns (accepted in pop order, heap remainder,
total accepted stake). -/
def selectLoop (r : RatioN) :
    Nat → List ValidatorStake → List ValidatorStake → Nat →
    Option (List ValidatorStake × List ValidatorStake × Nat)
  | 0, rest, acc, total => some (acc.reverse, rest, total)
  | _ + 1, [], acc, total => some (acc.reverse, [], total)
  | fuel + 1, p :: rest, acc, total =>
    if total + p.stake = 0 then none
    else if r.num * (total + p.stake) < p.stake * r.den then
      selectLoop r fuel rest (p :: acc) (total + p.stake)
    else some (acc.reverse, p :: rest, total)

/-- `select_validators` (validator_selection.rs).  Takes the pop sequence of
the proposal heap; returns the selected validators, the heap remainder and
the threshold stake, or `none` where the source panics: the
`validators.last().unwrap()` of the filled-all-slots branch with zero seats,
a zero denominator in `Ratio::new`, or `1 - min_stake_ratio ≤ 0` in the
`FixStakingThreshold` branch. -/
def select_validators (proposals : List ValidatorStake)
    (max_number_selected : Nat) (min_stake_ratio : RatioN)
    (fix_staking_threshold : Bool) :
    Option (List ValidatorStake × List ValidatorStake × Nat) :=
  match selectLoop min_stake_ratio max_number_selected proposals [] 0 with
  | none => none
  | some (validators, rest, total) =>
    if validators.length = max_number_selected then
      match validators.getLast? with
      | some v => some (validators, rest, v.stake + 1)
      | none => none
    else if fix_staking_threshold then
      if min_stake_ratio.num < min_stake_ratio.den then
        some (validators, rest,
          ceilDivN (min_stake_ratio.num * total)
            (min_stake_ratio.den - min_stake_ratio.num))
      else none
    else
      some (validators, rest, ceilDivN (min_stake_ratio.num * total)
        min_stake_ratio.den)

/-- `select_block_producers`. -/
def select_block_producers (block_producer_proposals : List ValidatorStake)
    (max_num_selected : Nat) (min_stake_ratio : RatioN)
    (fix_staking_threshold : Bool) :
    Option (List ValidatorStake × List ValidatorStake × Nat) :=
  select_validators block_producer_proposals max_num_selected min_stake_ratio
    fix_staking_threshold

/-- `select_chunk_producers`: the ratio is divided by the shard count. -/
def select_chunk_producers (all_proposals : List ValidatorStake)
    (max_num_selected : Nat) (min_stake_ratio : RatioN) (num_shards : Nat)
    (fix_staking_threshold : Bool) :
    Option (List ValidatorStake × List ValidatorStake × Nat) :=
  select_validators all_proposals max_num_selected
    ⟨min_stake_ratio.num, min_stake_ratio.den * num_shards⟩
    fix_staking_threshold

/-! ## Validator selection: rollover and the full pipeline -/

/-- `ValidatorKickoutReason` (only the constructors the claims touch carry
their fields). -/
inductive KickoutReason where
  | NotEnoughStake (stake : Balance) (threshold : Balance)
  | Unstaked
  | Slashed
deriving DecidableEq, Repr

/-- Association-map insert with overwrite: the model of `HashMap::insert` /
`BTreeMap::insert` (iteration order of the model is first-insertion order;
no verified property depends on it). -/
def ainsert {β : Type} (l : List (AccountId × β)) (a : AccountId) (v : β) :
    List (AccountId × β) :=
  if l.any (fun p => p.1 = a) then
    l.map (fun p => if p.1 = a then (a, v) else p)
  else l ++ [(a, v)]

/-- Map lookup. -/
def alookup {β : Type} : List (AccountId × β) → AccountId → Option β
  | [], _ => none
  | p :: l, a => if p.1 = a then some p.2 else alookup l a

/-- Lookup in a by-account collection of stakes (`proposals_by_account`). -/
def vlookup : List ValidatorStake → AccountId → Option ValidatorStake
  | [], _ => none
  | v :: l, a => if v.account_id = a then some v else vlookup l a

/-- Insert with account-keyed overwrite into `proposals_by_account`. -/
def vinsert (l : List ValidatorStake) (v : ValidatorStake) :
    List ValidatorStake :=
  if l.any (fun w => w.account_id = v.account_id) then
    l.map (fun w => if w.account_id = v.account_id then v else w)
  else l ++ [v]

/-- Previous-epoch information consumed by the selection: its validator and
fisherman sequences and the epoch height (`EpochInfo` getters
`validators_iter`, `fishermen_iter`, `epoch_height`,
`account_is_validator`, `account_is_fisherman`). -/
structure PrevEpochInfo where
  validators : List ValidatorStake
  fishermen : List ValidatorStake
  epoch_height : Nat
deriving DecidableEq, Repr

def account_is_validator (prev : PrevEpochInfo) (a : AccountId) : Bool :=
  prev.validators.any (fun v => v.account_id = a)

def account_is_fisherman (prev : PrevEpochInfo) (a : AccountId) : Bool :=
  prev.fishermen.any (fun v => v.account_id = a)

/-- Intermediate state of `proposals_with_rollover`. -/
structure RolloverState where
  proposals_by_account : List ValidatorStake
  stake_change : List (AccountId × Balance)
  fishermen : List ValidatorStake
deriving Repr

/-- `proposals_with_rollover`, first loop: incoming proposals.  A kicked
account only records `stake_change = 0`; others are inserted. -/
def rolloverProposalStep (validator_kickout : List (AccountId × KickoutReason))
    (st : RolloverState) (p : ValidatorStake) : RolloverState :=
  if (alookup validator_kickout p.account_id).isSome then
    { st with stake_change := ainsert st.stake_change p.account_id 0 }
  else
    { st with
      stake_change := ainsert st.stake_change p.account_id p.stake
      proposals_by_account := vinsert st.proposals_by_account p }

/-- `proposals_with_rollover`, second loop: previous-epoch validators.
`entry(account).or_insert(r)` keeps an existing proposal; the epoch reward is
then added to the entry's stake. -/
def rolloverValidatorStep (validator_reward : List (AccountId × Balance))
    (validator_kickout : List (AccountId × KickoutReason))
    (st : RolloverState) (r : ValidatorStake) : RolloverState :=
  if (alookup validator_kickout r.account_id).isSome then
    { st with stake_change := ainsert st.stake_change r.account_id 0 }
  else
    let p := (vlookup st.proposals_by_account r.account_id).getD r
    let p' : ValidatorStake :=
      match alookup validator_reward p.account_id with
      | some reward => { p with stake := p.stake + reward }
      | none => p
    { st with
      proposals_by_account := vinsert st.proposals_by_account p'
      stake_change := ainsert st.stake_change p'.account_id p'.stake }

/-- `proposals_with_rollover`, third loop: previous-epoch fishermen roll over
unless kicked or overridden by a proposal. -/
def rolloverFishermanStep (validator_kickout : List (AccountId × KickoutReason))
    (st : RolloverState) (r : ValidatorStake) : RolloverState :=
  if (alookup validator_kickout r.account_id).isSome then
    { st with stake_change := ainsert st.stake_change r.account_id 0 }
  else if (vlookup st.proposals_by_account r.account_id).isSome then
    st
  else
    { st with
      stake_change := ainsert st.stake_change r.account_id r.stake
      fishermen := st.fishermen ++ [r] }

/-- `proposals_with_rollover` (validator_selection.rs). -/
def proposals_with_rollover (proposals : List ValidatorStake)
    (prev_epoch_info : PrevEpochInfo)
    (validator_reward : List (AccountId × Balance))
    (validator_kickout : List (AccountId × KickoutReason)) : RolloverState :=
  let st0 : RolloverState := ⟨[], [], []⟩
  let st1 := proposals.foldl (rolloverProposalStep validator_kickout) st0
  let st2 := prev_epoch_info.validators.foldl
    (rolloverValidatorStep validator_reward validator_kickout) st1
  prev_epoch_info.fishermen.foldl (rolloverFishermanStep validator_kickout) st2

/-- The fields of `EpochConfig` read by `proposals_to_epoch_info`. -/
structure EpochConfigM where
  num_shards : Nat
  num_block_producer_seats : Nat
  num_block_producer_seats_per_shard : List Nat
  num_chunk_only_producer_seats : Nat
  minimum_validators_per_shard : Nat
  fishermen_threshold : Balance
  minimum_stake_ratio : RatioN
deriving Repr

/-- The fields of the produced `EpochInfo` the claims are about. -/
structure EpochInfoM where
  epoch_height : Nat
  validators : List ValidatorStake
  block_producers_settlement : List Nat
  chunk_producers_settlement : List (List Nat)
  fishermen : List ValidatorStake
  stake_change : List (AccountId × Balance)
  validator_kickout : List (AccountId × KickoutReason)
  seat_price : Balance
deriving DecidableEq, Repr

/-- Result of `proposals_to_epoch_info`: `panicked` models the `unwrap` /
`Ratio` panics inside `select_validators`, `notEnoughValidators` the
`EpochError::NotEnoughValidators` return. -/
inductive EpochResult where
  | panicked
  | notEnoughValidators (num_validators : Nat) (num_shards : Nat)
  | ok (info : EpochInfoM)
deriving DecidableEq, Repr

def shardLoad (s : List ValidatorStake) : Nat := (s.map (·.stake)).sum

/-- One greedy placement step of the shard assignment. -/
def assignOne (min_validators_per_shard : Nat)
    (shards : List (List ValidatorStake)) (cp : ValidatorStake) :
    List (List ValidatorStake) :=
  let idxs := List.range shards.length
  let needy := idxs.filter (fun i => (shards.getD i []).length <
    min_validators_per_shard)
  let cands := if needy.isEmpty then idxs else needy
  match cands with
  | [] => shards
  | c :: cs =>
    let best := cs.foldl
      (fun b i => if shardLoad (shards.getD i []) <
        shardLoad (shards.getD b []) then i else b) c
    shards.set best ((shards.getD best []) ++ [cp])

/-- Modelled from the spec: `assign_shards` from
`crate::shard_assignment` is not among the sources; per §4.2 step 7 of the
spec it balances total stake greedily — each producer, in the given
stake-descending order, goes to the least-loaded shard among those still
below `minimum_validators_per_shard` (or among all shards once every shard
has its minimum), smallest shard id winning ties — and fails when the
minimum per shard cannot be met. -/
def assign_shards (chunk_producers : List ValidatorStake) (num_shards : Nat)
    (min_validators_per_shard : Nat) :
    Option (List (List ValidatorStake)) :=
  if chunk_producers.length < num_shards * min_validators_per_shard then none
  else some (chunk_producers.foldl (assignOne min_validators_per_shard)
    (List.replicate num_shards []))

/-- State while numbering validators (`all_validators`,
`validator_to_index`, the settlements being built). -/
structure NumberingState where
  all_validators : List ValidatorStake
  validator_to_index : List (AccountId × Nat)
  chunk_producers_settlement : List (List Nat)
deriving Repr

/-- One validator of a shard's assignment: reuse the id of an
already-numbered account (a block producer, or a validator of an earlier
shard), otherwise append it to `all_validators` with the next id. -/
def numberStep (st : NumberingState × List Nat) (v : ValidatorStake) :
    NumberingState × List Nat :=
  match alookup st.1.validator_to_index v.account_id with
  | some id => (st.1, st.2 ++ [id])
  | none =>
    ({ st.1 with
        all_validators := st.1.all_validators ++ [v]
        validator_to_index := ainsert st.1.validator_to_index
          v.account_id st.1.all_validators.length },
      st.2 ++ [st.1.all_validators.length])

/-- Append one shard's assigned validators, reusing ids of block producers
(and of validators already appended) via `validator_to_index`. -/
def numberShard (st : NumberingState) (shard_validators : List ValidatorStake) :
    NumberingState :=
  let res := shard_validators.foldl numberStep (st, [])
  { res.1 with chunk_producers_settlement :=
      st.chunk_producers_settlement ++ [res.2] }

/-- Round-robin chunk-producer settlement of the pre-`ChunkOnlyProducers`
branch: the mutable index `id` persists across shards and
`block_producers_settlement[id] = id`. -/
def roundRobinShard (len : Nat) : Nat → Nat → (List Nat × Nat)
  | 0, id => ([], id)
  | k + 1, id =>
    let rest := roundRobinShard len k ((id + 1) % len)
    (id :: rest.1, rest.2)

def roundRobinSettlement (cfg : EpochConfigM) (len : Nat) :
    List (List Nat) :=
  (List.range cfg.num_shards).foldl
    (fun (acc : List (List Nat) × Nat) shard_id =>
      let k := min (cfg.num_block_producer_seats_per_shard.getD shard_id 0)
        len
      let r := roundRobinShard len k acc.2
      (acc.1 ++ [r.1], r.2))
    ([], 0) |>.1

/-- The loop over the proposals left in `chunk_producer_proposals`: big
enough stakes become fishermen, the rest are zeroed in `stake_change` and —
when the account was a previous-epoch validator or fisherman — recorded in
`validator_kickout` as `NotEnoughStake`.  (`stake_change.get_mut(...).unwrap()`
cannot panic: every account in the heap was given a `stake_change` entry by
the rollover.) -/
def processLeftover (cfg : EpochConfigM) (prev_epoch_info : PrevEpochInfo)
    (threshold : Balance)
    (st : List ValidatorStake × List (AccountId × Balance) ×
      List (AccountId × KickoutReason))
    (p : ValidatorStake) :
    List ValidatorStake × List (AccountId × Balance) ×
      List (AccountId × KickoutReason) :=
  if cfg.fishermen_threshold ≤ p.stake then
    (st.1 ++ [p], st.2.1, st.2.2)
  else
    let sc := ainsert st.2.1 p.account_id 0
    if account_is_validator prev_epoch_info p.account_id ||
        account_is_fisherman prev_epoch_info p.account_id then
      (st.1, sc, ainsert st.2.2 p.account_id
        (KickoutReason.NotEnoughStake p.stake threshold))
    else (st.1, sc, st.2.2)

/-- `proposals_to_epoch_info` (validator_selection.rs).  The two
`checked_feature!` probes are passed as explicit flags:
`chunk_only_producers` for `ChunkOnlyProducers` (a function of
`next_version`) and `fix_staking_threshold` for `FixStakingThreshold` (a
function of `last_version`).  `rng_seed`, `minted_amount` and the versions
have no influence on any verified field and are omitted. -/
def proposals_to_epoch_info (epoch_config : EpochConfigM)
    (prev_epoch_info : PrevEpochInfo) (proposals : List ValidatorStake)
    (validator_kickout : List (AccountId × KickoutReason))
    (validator_reward : List (AccountId × Balance))
    (chunk_only_producers : Bool) (fix_staking_threshold : Bool) :
    EpochResult :=
  let min_stake_ratio := epoch_config.minimum_stake_ratio
  let max_bp_selected := epoch_config.num_block_producer_seats
  let ro := proposals_with_rollover proposals prev_epoch_info validator_reward
    validator_kickout
  let block_producer_proposals := order_proposals ro.proposals_by_account
  match select_block_producers block_producer_proposals max_bp_selected
    min_stake_ratio fix_staking_threshold with
  | none => EpochResult.panicked
  | some (block_producers, bp_rest, bp_stake_threshold) =>
    let cpSel :=
      if chunk_only_producers then
        let chunk_producer_proposals := order_proposals ro.proposals_by_account
        select_chunk_producers chunk_producer_proposals
          (max_bp_selected + epoch_config.num_chunk_only_producer_seats)
          min_stake_ratio epoch_config.num_shards fix_staking_threshold
      else some (block_producers, bp_rest, bp_stake_threshold)
    match cpSel with
    | none => EpochResult.panicked
    | some (chunk_producers, cp_rest, cp_stake_threshold) =>
      let threshold := min bp_stake_threshold cp_stake_threshold
      let left := cp_rest.foldl
        (processLeftover epoch_config prev_epoch_info threshold)
        (ro.fishermen, ro.stake_change, validator_kickout)
      let fishermen := left.1
      let stake_change := left.2.1
      let kickout := left.2.2
      let bpCount := block_producers.length
      let bpState : NumberingState :=
        { all_validators := block_producers
          validator_to_index := (block_producers.enum.map
            (fun p => (p.2.account_id, p.1)))
          chunk_producers_settlement := [] }
      let block_producers_settlement := List.range bpCount
      let assembled :=
        if chunk_only_producers then
          match assign_shards chunk_producers epoch_config.num_shards
            epoch_config.minimum_validators_per_shard with
          | none => none
          | some shard_assignment =>
            some (shard_assignment.foldl numberShard bpState)
        else if chunk_producers.isEmpty then none
        else
          some { bpState with chunk_producers_settlement :=
            roundRobinSettlement epoch_config bpCount }
      match assembled with
      | none => EpochResult.notEnoughValidators
          (if chunk_only_producers then chunk_producers.length else 0)
          epoch_config.num_shards
      | some st =>
        EpochResult.ok
          { epoch_height := prev_epoch_info.epoch_height + 1
            validators := st.all_validators
            block_producers_settlement := block_producers_settlement
            chunk_producers_settlement := st.chunk_producers_settlement
            fishermen := fishermen
            stake_change := stake_change
            validator_kickout := kickout
            seat_price := threshold }

/-! ## Client: block-production bookkeeping (client.rs)

The chain store, epoch manager and Doomslug are external collaborators; the
answers `produce_block_on` obtains from them are supplied in a `ProduceEnv`
record.  Collaborator calls that return `Result` are modelled by `Bool`
fields that are `false` when the call fails (every failure exit returns
without touching `latest_known`, exactly as an `Err` return of the source
does). -/

structure LatestKnown where
  height : Nat
  seen : Nat
deriving DecidableEq, Repr

/-- The only chain-store state `produce_block_on` writes. -/
structure ChainStoreState where
  latest_known : LatestKnown
deriving DecidableEq, Repr

structure ProduceEnv where
  /-- `self.validator_signer` (`none`: not a validator, `Error::BlockProducer`). -/
  validator_signer : Option AccountId
  /-- `epoch_manager.get_block_producer(&epoch_id, height)` (`none`: `Err`). -/
  next_block_proposer : Option AccountId
  /-- `get_block_header(prev_hash)` and `check_and_update_doomslug_tip`
  succeed. -/
  pre_steps_ok : Bool
  /-- `epoch_manager.is_next_block_epoch_start(prev_hash)`. -/
  is_next_block_epoch_start : Bool
  /-- `chain.prev_block_is_caught_up(prev_prev_hash, prev_hash)`. -/
  prev_block_is_caught_up : Bool
  /-- local validator key equals the epoch manager's key for the proposer. -/
  validator_pk_matches : Bool
  produce_empty_blocks : Bool
  /-- `get_chunk_headers_ready_for_inclusion(...).is_empty()`. -/
  new_chunks_is_empty : Bool
  /-- every remaining fallible query up to `Block::produce` succeeds. -/
  later_steps_ok : Bool
  /-- `block.header().raw_timestamp()` of the produced block. -/
  block_raw_timestamp : Nat
deriving Repr

structure ProducedBlock where
  height : Nat
  raw_timestamp : Nat
deriving DecidableEq, Repr

/-- `can_produce_block` (client.rs).  The `test_features` overrides are not
compiled into release builds and are not modelled.  The latest-known height
is read from the store state; the remaining queries are environment
answers. -/
def can_produce_block (env : ProduceEnv) (store : ChainStoreState)
    (height : Nat) (account_id next_block_proposer : AccountId) : Bool :=
  if account_id ≠ next_block_proposer then false
  else if height ≤ store.latest_known.height then false
  else if env.is_next_block_epoch_start && !env.prev_block_is_caught_up then
    false
  else true

/-- `produce_block_on` (client.rs): returns the produced block (if any)
together with the chain-store state; `save_latest_known` runs before the
block is handed out, so a `some` result always comes with the updated
store. -/
def produce_block_on (env : ProduceEnv) (store : ChainStoreState)
    (height : Nat) : Option ProducedBlock × ChainStoreState :=
  match env.validator_signer with
  | none => (none, store)
  | some me =>
    match env.next_block_proposer with
    | none => (none, store)
    | some proposer =>
      if !env.pre_steps_ok then (none, store)
      else if !can_produce_block env store height me proposer then
        (none, store)
      else if !env.validator_pk_matches then (none, store)
      else if !env.produce_empty_blocks && env.new_chunks_is_empty then
        (none, store)
      else if !env.later_steps_ok then (none, store)
      else
        let block : ProducedBlock := ⟨height, env.block_raw_timestamp⟩
        (some block,
          { store with latest_known := ⟨height, block.raw_timestamp⟩ })

/-! ## Client: receiving blocks (client.rs) -/

def BLOCK_HORIZON : Nat := 500

abbrev PeerId := Nat

/-- `near_chain::chain::VerifyBlockHashAndSignatureResult`, as used by
`receive_block_impl` (only equality with `Incorrect` is inspected). -/
inductive VerifyBlockHashAndSignatureResult where
  | Correct
  | Incorrect
  | CannotVerifyBecauseBlockIsOrphan
deriving DecidableEq, Repr

/-- Modelled from the spec: the `near_chain::Error` kinds §7 distinguishes
for block reception, with `is_bad_data` as the spec's `BadData` class
(structural/signature failures are bad data, `Orphan` and missing data are
not). -/
inductive ChainError where
  | invalidSignature
  | invalidBlockFutureTime
  | orphan
  | other (bad_data : Bool)
deriving DecidableEq, Repr

def ChainError.is_bad_data : ChainError → Bool
  | .invalidSignature => true
  | .invalidBlockFutureTime => true
  | .orphan => false
  | .other b => b

inductive ReasonForBan where
  | BadBlockHeader
deriving DecidableEq, Repr

/-- Outbound effects of block reception. -/
inductive NetAction where
  | banPeer (peer : PeerId) (reason : ReasonForBan)
  | rebroadcast
  | requestBlock (peer : PeerId)
deriving DecidableEq, Repr

structure ReceiveEnv where
  head_height : Nat
  tail : Nat
  /-- `head.epoch_id == block.header().epoch_id()`. -/
  head_epoch_matches : Bool
  is_syncing : Bool
  /-- `block.header().prev_hash() == head.last_block_hash`. -/
  prev_hash_is_head : Bool
  /-- `chain.is_height_processed(block.height)`. -/
  is_height_processed : Bool
  /-- `chain.verify_block_hash_and_signature(&block)`. -/
  verify_hash_sig : VerifyBlockHashAndSignatureResult
  /-- `process_block_header` chained with `validate_block`
  (`none` = `Ok`). -/
  header_validation : Option ChainError
  /-- `start_process_block` result (`none` = `Ok`). -/
  process_result : Option ChainError
  /-- `chain.is_orphan(prev_hash)`. -/
  is_orphan_known : Bool
deriving Repr

/-- `check_block_height` (client.rs): the spam pre-check on block height. -/
def check_block_height (env : ReceiveEnv) (block_height : Nat)
    (was_requested : Bool) : Bool :=
  if env.head_height + BLOCK_HORIZON ≤ block_height && env.is_syncing &&
      !was_requested then false
  else if block_height < env.tail then false
  else if !was_requested && !env.prev_hash_is_head &&
      env.is_height_processed then false
  else true

/-- `verify_and_rebroadcast_block` (client.rs): rebroadcast valid blocks,
ban the peer on bad data except `InvalidBlockFutureTime`, swallow the other
errors. -/
def verify_and_rebroadcast_block (env : ReceiveEnv) (block_height : Nat)
    (was_requested : Bool) (peer_id : PeerId) :
    List NetAction × Option ChainError :=
  match env.header_validation with
  | none =>
    (if (env.head_height < block_height || env.head_epoch_matches) &&
        !was_requested && !env.is_syncing then [NetAction.rebroadcast]
     else [], none)
  | some e =>
    if e.is_bad_data then
      (if e ≠ ChainError.invalidBlockFutureTime then
        [NetAction.banPeer peer_id ReasonForBan.BadBlockHeader]
       else [], some e)
    else ([], none)

/-- `receive_block_impl` (client.rs): height pre-check, hash/signature
check with ban on `Incorrect`, verify-and-rebroadcast, then block
processing (an `Orphan` outcome requests the parent from the peer).
Returns the emitted network actions and the overall result. -/
def receive_block_impl (env : ReceiveEnv) (block_height : Nat)
    (peer_id : PeerId) (was_requested : Bool) :
    List NetAction × Option ChainError :=
  if !check_block_height env block_height was_requested then ([], none)
  else if env.verify_hash_sig = VerifyBlockHashAndSignatureResult.Incorrect
  then
    ([NetAction.banPeer peer_id ReasonForBan.BadBlockHeader],
      some ChainError.invalidSignature)
  else
    match verify_and_rebroadcast_block env block_height was_requested peer_id
    with
    | (acts, some e) => (acts, some e)
    | (acts, none) =>
      match env.process_result with
      | some ChainError.orphan =>
        if !env.is_orphan_known then
          (acts ++ [NetAction.requestBlock peer_id], some ChainError.orphan)
        else (acts, some ChainError.orphan)
      | r => (acts, r)

/-! ## Client: transaction-pool reconciliation (client.rs)

`ShardedTransactionPool` lives outside the sources; per the spec the pool
holds a set of transactions per shard (`remove_transactions` deletes the
given ones, `reintroduce_transactions` inserts the missing ones and reports
how many were actually inserted).  The shard tracker's
`cares_about_shard_this_or_next_epoch` — note the differing fourth argument
(`is_me`) at the two call sites — and `shard_id_to_uid` are environment
functions. -/

abbrev Tx := Nat

abbrev ShardUIdM := Nat

structure ChunkM where
  height_included : Nat
  transactions : List Tx
deriving DecidableEq, Repr

structure BlockM where
  height : Nat
  chunks : List ChunkM
  challenges : List Nat
deriving DecidableEq, Repr

structure PoolEnv where
  /-- `cares_about_shard_this_or_next_epoch(Some(&me), prev_hash, shard_id,
  is_me, shard_tracker)`: arguments other than `shard_id` and the `is_me`
  flag are fixed at both call sites. -/
  cares_about_shard : Nat → Bool → Bool
  /-- `epoch_manager.shard_id_to_uid(shard_id, &epoch_id)`. -/
  shard_uid : Nat → ShardUIdM

structure TxPoolState where
  pools : ShardUIdM → Finset Tx
  challenges : Finset Nat

/-- Modelled from the spec: `ShardedTransactionPool::remove_transactions`
(the pool crate is not among the sources) deletes the listed transactions
from the shard's pool. -/
def pool_remove_transactions (st : TxPoolState) (uid : ShardUIdM)
    (txs : List Tx) : TxPoolState :=
  { st with pools := fun u =>
      if u = uid then st.pools u \ txs.toFinset else st.pools u }

/-- Modelled from the spec: `ShardedTransactionPool::reintroduce_transactions`
inserts the listed transactions, skipping ones already present. -/
def pool_reintroduce_transactions (st : TxPoolState) (uid : ShardUIdM)
    (txs : List Tx) : TxPoolState :=
  { st with pools := fun u =>
      if u = uid then st.pools u ∪ txs.toFinset else st.pools u }

/-- `remove_transactions_for_block` (client.rs): for every chunk included at
the block's height in a shard the node cares about (`is_me = true`), remove
its transactions; then drop the block's challenges. -/
def remove_transactions_for_block (env : PoolEnv) (block : BlockM)
    (st : TxPoolState) : TxPoolState :=
  let st1 := block.chunks.enum.foldl
    (fun st p =>
      if block.height = p.2.height_included && env.cares_about_shard p.1 true
      then pool_remove_transactions st (env.shard_uid p.1) p.2.transactions
      else st) st
  { st1 with challenges :=
      block.challenges.foldl (fun c h => c.erase h) st1.challenges }

/-- `reintroduce_transactions_for_block` (client.rs): the reverse walk, with
`is_me = false` at the shard-tracker call. -/
def reintroduce_transactions_for_block (env : PoolEnv) (block : BlockM)
    (st : TxPoolState) : TxPoolState :=
  let st1 := block.chunks.enum.foldl
    (fun st p =>
      if block.height = p.2.height_included && env.cares_about_shard p.1 false
      then pool_reintroduce_transactions st (env.shard_uid p.1)
        p.2.transactions
      else st) st
  { st1 with challenges :=
      block.challenges.foldl (fun c h => insert h c) st1.challenges }

/-! ## Flat storage: the `verify` command (tools/flat-storage/commands.rs)

The trie iterator yields `(key, value)` pairs and the flat-state iterator
`(key, FlatStateValue)` pairs, both in ascending key order; `verify`
zip-iterates them.  `near_primitives::hash::hash` is an opaque parameter. -/

abbrev FlatKey := List Nat

abbrev FlatValue := List Nat

structure ValueRef where
  length : Nat
  hash : Nat
deriving DecidableEq, Repr

inductive FlatStateValue where
  | ref (r : ValueRef)
  | inlined (v : FlatValue)
deriving DecidableEq, Repr

/-- `FlatStateValue::to_value_ref`. -/
def FlatStateValue.to_value_ref (hash : FlatValue → Nat) :
    FlatStateValue → ValueRef
  | .ref r => r
  | .inlined v => ⟨v.length, hash v⟩

/-- Outcome of the `verify` loop: `success n` prints
`Success - verified n nodes`, `failed n` prints `FAILED - on node n`. -/
inductive VerifyOutcome where
  | success (verified : Nat)
  | failed (verified : Nat)
deriving DecidableEq, Repr

/-- The zip-iteration of `verify`: `verified` is incremented as soon as a
pair is drawn; the first disagreement on key, length or hash stops the
loop. -/
def verifyLoop (hash : FlatValue → Nat) :
    List (FlatKey × FlatValue) → List (FlatKey × FlatStateValue) → Nat →
    VerifyOutcome
  | [], _, n => .success n
  | _ :: _, [], n => .success n
  | (kt, vt) :: ts, (kf, vf) :: fs, n =>
    let value_ref := vf.to_value_ref hash
    if kt ≠ kf then .failed (n + 1)
    else if vt.length ≠ value_ref.length then .failed (n + 1)
    else if hash vt ≠ value_ref.hash then .failed (n + 1)
    else verifyLoop hash ts fs (n + 1)

/-- The comparison core of the `verify` command for a Ready shard, applied
to the trie iterator at the chunk-extra state root of the flat head and to
the flat-state iterator. -/
def verify (hash : FlatValue → Nat) (trie_entries : List (FlatKey × FlatValue))
    (flat_entries : List (FlatKey × FlatStateValue)) : VerifyOutcome :=
  verifyLoop hash trie_entries flat_entries 0

/-- Agreement of one trie/flat pair: the three assertions of the loop. -/
def pairAgrees (hash : FlatValue → Nat) (t : FlatKey × FlatValue)
    (f : FlatKey × FlatStateValue) : Prop :=
  t.1 = f.1 ∧ t.2.length = (f.2.to_value_ref hash).length ∧
    hash t.2 = (f.2.to_value_ref hash).hash

instance (hash : FlatValue → Nat) (t : FlatKey × FlatValue)
    (f : FlatKey × FlatStateValue) : Decidable (pairAgrees hash t f) := by
  unfold pairAgrees; infer_instance

/-- The transactions the chunk walk of `remove_transactions_for_block` /
`reintroduce_transactions_for_block` touches in the pool of shard `u`:
union over the enumerated chunks passing the height-and-care condition
`cond` whose shard maps to `u`. -/
def shardTxsOf (env : PoolEnv) (cond : Nat × ChunkM → Bool)
    (l : List (Nat × ChunkM)) (u : ShardUIdM) : Finset Tx :=
  l.foldr (fun p acc =>
    if cond p && decide (env.shard_uid p.1 = u) then
      p.2.transactions.toFinset ∪ acc
    else acc) ∅

/-! ## Projections and concrete instances used in the statements -/

/-- Some element of `l` carries account id `a`. -/
def hasAccount (l : List ValidatorStake) (a : AccountId) : Prop :=
  ∃ v ∈ l, v.account_id = a

/-- Well-formedness of the numbering state: every account indexed by
`validator_to_index` occurs in `all_validators`. -/
def vmapWF (st : NumberingState) : Prop :=
  ∀ a, (alookup st.validator_to_index a).isSome = true →
    ∃ w ∈ st.all_validators, w.account_id = a

def epochIsOk : EpochResult → Bool
  | .ok _ => true
  | _ => false

def epochValidators : EpochResult → List ValidatorStake
  | .ok i => i.validators
  | _ => []

def epochSeatPrice : EpochResult → Nat
  | .ok i => i.seat_price
  | _ => 0

def epochValidatorAccounts : EpochResult → List AccountId
  | .ok i => i.validators.map (·.account_id)
  | _ => []

def epochValidatorStakes : EpochResult → List Balance
  | .ok i => i.validators.map (·.stake)
  | _ => []

def epochFishermenAccounts : EpochResult → List AccountId
  | .ok i => i.fishermen.map (·.account_id)
  | _ => []

def epochKickout : EpochResult → List (AccountId × KickoutReason)
  | .ok i => i.validator_kickout
  | _ => []

/-- Environment of the pool round-trip instances: the node cares about
every shard (under either `is_me` flag) and shard ids are their own
uids. -/
def c7Env : PoolEnv :=
  { cares_about_shard := fun _ _ => true
    shard_uid := fun i => i }

/-- A block with a single chunk included at the block's height carrying
transaction `7`. -/
def c7Block : BlockM :=
  { height := 5
    chunks := [⟨5, [7]⟩]
    challenges := [] }

/-- A pool that does not contain transaction `7`. -/
def c7EmptyPool : TxPoolState :=
  { pools := fun _ => ∅
    challenges := ∅ }

/-- A pool that contains transaction `7` in every shard. -/
def c7FullPool : TxPoolState :=
  { pools := fun _ => {7}
    challenges := ∅ }

/-- One seat, two 300-stake proposals, `valb` a previous-epoch validator:
the seat fills and the returned threshold is 301, one more than the seated
stake. -/
def c1xConfig : EpochConfigM :=
  { num_shards := 1
    num_block_producer_seats := 1
    num_block_producer_seats_per_shard := [1]
    num_chunk_only_producer_seats := 0
    minimum_validators_per_shard := 1
    fishermen_threshold := 150
    minimum_stake_ratio := ⟨1, 10⟩ }

def c1xPrev : PrevEpochInfo :=
  { validators := [⟨"valb", 300⟩]
    fishermen := []
    epoch_height := 7 }

def c1xProps : List ValidatorStake := [⟨"vala", 300⟩, ⟨"valb", 300⟩]

/-- The epoch info produced on the `c1x` instance. -/
def c1xInfo : EpochInfoM :=
  { epoch_height := 8
    validators := [⟨"vala", 300⟩]
    block_producers_settlement := [0]
    chunk_producers_settlement := [[0]]
    fishermen := [⟨"valb", 300⟩]
    stake_change := [("vala", 300), ("valb", 300)]
    validator_kickout := []
    seat_price := 301 }

/-- Two shards with chunk-only producers: the shard assignment interleaves
the appended chunk-only validators, so `all_validators` is not globally
sorted by stake. -/
def c2xConfig : EpochConfigM :=
  { num_shards := 2
    num_block_producer_seats := 1
    num_block_producer_seats_per_shard := [1, 1]
    num_chunk_only_producer_seats := 3
    minimum_validators_per_shard := 1
    fishermen_threshold := 100
    minimum_stake_ratio := ⟨1, 100⟩ }

def c2xPrev : PrevEpochInfo :=
  { validators := []
    fishermen := []
    epoch_height := 3 }

def c2xProps : List ValidatorStake :=
  [⟨"va", 5⟩, ⟨"vb", 4⟩, ⟨"vc", 3⟩, ⟨"vd", 2⟩]

/-- The configuration of the ratio-cutoff scenario (§8 scenario 3 of the
spec, `test_validator_assignment_ratio_condition`). -/
def c3Config : EpochConfigM :=
  { num_shards := 1
    num_block_producer_seats := 100
    num_block_producer_seats_per_shard := [100]
    num_chunk_only_producer_seats := 300
    minimum_validators_per_shard := 1
    fishermen_threshold := 150
    minimum_stake_ratio := ⟨1, 10⟩ }

def c3Prev : PrevEpochInfo :=
  { validators := [⟨"test5", 100⟩, ⟨"test6", 100⟩]
    fishermen := []
    epoch_height := 7 }

def c3Proposals : List ValidatorStake :=
  [⟨"test1", 1000⟩, ⟨"test2", 1000⟩, ⟨"test3", 1000⟩,
   ⟨"test4", 200⟩, ⟨"test5", 100⟩, ⟨"test6", 50⟩]

/-- Witness for C4 at a concrete environment. -/
def c4Env : ProduceEnv :=
  { validator_signer := some "v0"
    next_block_proposer := some "v0"
    pre_steps_ok := true
    is_next_block_epoch_start := false
    prev_block_is_caught_up := true
    validator_pk_matches := true
    produce_empty_blocks := true
    new_chunks_is_empty := true
    later_steps_ok := true
    block_raw_timestamp := 12345 }

/-- Witness environment for C5: a block failing signature verification. -/
def c5Env : ReceiveEnv :=
  { head_height := 10
    tail := 2
    head_epoch_matches := true
    is_syncing := false
    prev_hash_is_head := true
    is_height_processed := false
    verify_hash_sig := VerifyBlockHashAndSignatureResult.Incorrect
    header_validation := none
    process_result := none
    is_orphan_known := false }

/-- Witness environment for C6: syncing node, head 1000, tail 600. -/
def c6Env : ReceiveEnv :=
  { head_height := 1000
    tail := 600
    head_epoch_matches := true
    is_syncing := true
    prev_hash_is_head := true
    is_height_processed := false
    verify_hash_sig := VerifyBlockHashAndSignatureResult.Correct
    header_validation := none
    process_result := none
    is_orphan_known := false }

/-! ## Theorems -/

/-- Claim C3: with one shard, 100 block-producer seats, fishermen_threshold
150, min_stake_ratio 1/10, proposals (test1..test6 with stakes
1000,1000,1000,200,100,50), previous-epoch validators test5 and test6 and no
kickouts or rewards, `proposals_to_epoch_info` returns validators
test1,test2,test3, fishermen test4, kickouts test5/test6 with
NotEnoughStake, and threshold 334 with FixStakingThreshold enabled
resp. 300 with it disabled. -/
theorem c3_ratio_cutoff_scenario :
    (epochIsOk (proposals_to_epoch_info c3Config c3Prev c3Proposals [] []
        true true) = true ∧
      epochValidatorAccounts (proposals_to_epoch_info c3Config c3Prev
        c3Proposals [] [] true true) = ["test1", "test2", "test3"] ∧
      epochFishermenAccounts (proposals_to_epoch_info c3Config c3Prev
        c3Proposals [] [] true true) = ["test4"] ∧
      epochKickout (proposals_to_epoch_info c3Config c3Prev c3Proposals [] []
        true true) =
        [("test5", KickoutReason.NotEnoughStake 100 334),
         ("test6", KickoutReason.NotEnoughStake 50 334)] ∧
      epochSeatPrice (proposals_to_epoch_info c3Config c3Prev c3Proposals []
        [] true true) = 334) ∧
    (epochIsOk (proposals_to_epoch_info c3Config c3Prev c3Proposals [] []
        true false) = true ∧
      epochValidatorAccounts (proposals_to_epoch_info c3Config c3Prev
        c3Proposals [] [] true false) = ["test1", "test2", "test3"] ∧
      epochFishermenAccounts (proposals_to_epoch_info c3Config c3Prev
        c3Proposals [] [] true false) = ["test4"] ∧
      epochKickout (proposals_to_epoch_info c3Config c3Prev c3Proposals [] []
        true false) =
        [("test5", KickoutReason.NotEnoughStake 100 300),
         ("test6", KickoutReason.NotEnoughStake 50 300)] ∧
      epochSeatPrice (proposals_to_epoch_info c3Config c3Prev c3Proposals []
        [] true false) = 300) := by
  decide

/-- Claim C10: with `max_number_selected = 0` the selection loop runs zero
times, the filled-all-slots branch is taken (`0 = 0`) and
`validators.last().unwrap()` panics on the empty vector; consequently
`proposals_to_epoch_info` panics whenever `num_block_producer_seats = 0`. -/
theorem c10_zero_seats_panics :
    (∀ (proposals : List ValidatorStake) (r : RatioN) (fix : Bool),
      select_validators proposals 0 r fix = none) ∧
    (∀ (cfg : EpochConfigM) (prev : PrevEpochInfo)
      (props : List ValidatorStake)
      (kick : List (AccountId × KickoutReason))
      (rew : List (AccountId × Balance)) (cop fix : Bool),
      proposals_to_epoch_info { cfg with num_block_producer_seats := 0 }
        prev props kick rew cop fix = EpochResult.panicked) := by
  constructor
  · intro proposals r fix
    simp [select_validators, selectLoop]
  · intro cfg prev props kick rew cop fix
    simp [proposals_to_epoch_info, select_block_producers, select_validators,
      selectLoop]

/-- Claim C6: while syncing and not requested, height
`head + BLOCK_HORIZON - 1` passes the pre-check and `head + BLOCK_HORIZON`
is dropped; independently of sync status, height `tail` passes and
`tail - 1` is dropped.  "Passes" additionally requires the remaining
checks of `check_block_height` not to fire, which the hypotheses record. -/
theorem c6_height_precheck_boundaries :
    ∀ (env : ReceiveEnv) (was_requested : Bool),
    (env.is_syncing = true → was_requested = false →
      (env.tail ≤ env.head_height + BLOCK_HORIZON - 1 →
        (env.prev_hash_is_head = true ∨ env.is_height_processed = false) →
        check_block_height env (env.head_height + BLOCK_HORIZON - 1)
          was_requested = true) ∧
      check_block_height env (env.head_height + BLOCK_HORIZON)
        was_requested = false) ∧
    ((env.tail < env.head_height + BLOCK_HORIZON ∨ env.is_syncing = false ∨
        was_requested = true) →
      (was_requested = true ∨ env.prev_hash_is_head = true ∨
        env.is_height_processed = false) →
      check_block_height env env.tail was_requested = true) ∧
    (1 ≤ env.tail →
      check_block_height env (env.tail - 1) was_requested = false) := by
  intro env was_requested
  refine ⟨fun hs hr => ⟨fun ht hp => ?_, ?_⟩, fun h1 h2 => ?_, fun ht => ?_⟩
  · unfold check_block_height BLOCK_HORIZON at *
    rcases hp with hp | hp <;> simp [hs, hr, hp] <;> omega
  · unfold check_block_height BLOCK_HORIZON at *
    simp [hs, hr]
  · unfold check_block_height BLOCK_HORIZON at *
    rcases h1 with h1 | h1 | h1 <;> rcases h2 with h2 | h2 | h2 <;>
      simp [h1, h2]
  · unfold check_block_height BLOCK_HORIZON at *
    by_cases hs : env.is_syncing <;> by_cases hr : was_requested <;>
      simp [hs, hr] <;> omega

/-- If every zipped pair agrees, the loop succeeds counting the zipped
length. -/
theorem verifyLoop_success (hash : FlatValue → Nat) :
    ∀ (t : List (FlatKey × FlatValue)) (f : List (FlatKey × FlatStateValue))
      (n : Nat), (∀ p ∈ t.zip f, pairAgrees hash p.1 p.2) →
    verifyLoop hash t f n =
      VerifyOutcome.success (n + min t.length f.length) := by
  intro t
  induction t with
  | nil => intro f n _; simp [verifyLoop]
  | cons p ts ih =>
    intro f n hagree
    cases f with
    | nil => simp [verifyLoop]
    | cons q fs =>
      obtain ⟨kt, vt⟩ := p
      obtain ⟨kf, vf⟩ := q
      have hmem : ((kt, vt), (kf, vf)) ∈
          ((kt, vt) :: ts).zip ((kf, vf) :: fs) := by
        rw [List.zip_cons_cons]; exact List.mem_cons_self _ _
      have hk : kt = kf := (hagree _ hmem).1
      have hl : vt.length = (FlatStateValue.to_value_ref hash vf).length :=
        (hagree _ hmem).2.1
      have hh : hash vt = (FlatStateValue.to_value_ref hash vf).hash :=
        (hagree _ hmem).2.2
      have hrec := ih fs (n + 1) (fun pr hpr => hagree pr
        (by rw [List.zip_cons_cons]; exact List.mem_cons_of_mem _ hpr))
      simp only [verifyLoop]
      rw [if_neg (not_not_intro hk), if_neg (not_not_intro hl),
        if_neg (not_not_intro hh), hrec]
      congr 1
      simp only [List.length_cons]
      omega

/-- A success outcome implies every zipped pair agrees. -/
theorem verifyLoop_success_inv (hash : FlatValue → Nat) :
    ∀ (t : List (FlatKey × FlatValue)) (f : List (FlatKey × FlatStateValue))
      (n m : Nat),
    verifyLoop hash t f n = VerifyOutcome.success m →
    ∀ p ∈ t.zip f, pairAgrees hash p.1 p.2 := by
  intro t
  induction t with
  | nil => intro f n m _ p hp; simp at hp
  | cons p ts ih =>
    intro f n m hloop pr hpr
    cases f with
    | nil => simp at hpr
    | cons q fs =>
      obtain ⟨kt, vt⟩ := p
      obtain ⟨kf, vf⟩ := q
      rw [List.zip_cons_cons] at hpr
      by_cases hk : kt = kf
      · by_cases hl : vt.length = (FlatStateValue.to_value_ref hash vf).length
        · by_cases hh : hash vt = (FlatStateValue.to_value_ref hash vf).hash
          · simp only [verifyLoop] at hloop
            rw [if_neg (not_not_intro hk), if_neg (not_not_intro hl),
              if_neg (not_not_intro hh)] at hloop
            rcases List.mem_cons.mp hpr with h | h
            · subst h; exact ⟨hk, hl, hh⟩
            · exact ih fs (n + 1) m hloop pr h
          · simp [verifyLoop, hk, hl, hh] at hloop
        · simp [verifyLoop, hk, hl] at hloop
      · simp [verifyLoop, hk] at hloop

/-- The first disagreeing pair stops the loop with the count reached. -/
theorem verifyLoop_failed (hash : FlatValue → Nat) :
    ∀ (t1 : List (FlatKey × FlatValue)) (p : FlatKey × FlatValue)
      (t2 : List (FlatKey × FlatValue))
      (f1 : List (FlatKey × FlatStateValue)) (q : FlatKey × FlatStateValue)
      (f2 : List (FlatKey × FlatStateValue)) (n : Nat),
    t1.length = f1.length →
    (∀ pr ∈ t1.zip f1, pairAgrees hash pr.1 pr.2) →
    ¬ pairAgrees hash p q →
    verifyLoop hash (t1 ++ p :: t2) (f1 ++ q :: f2) n =
      VerifyOutcome.failed (n + t1.length + 1) := by
  intro t1
  induction t1 with
  | nil =>
    intro p t2 f1 q f2 n hlen _ hne
    have hf1 : f1 = [] := List.length_eq_zero.mp hlen.symm
    subst hf1
    obtain ⟨kt, vt⟩ := p
    obtain ⟨kf, vf⟩ := q
    have hne' : ¬ (kt = kf ∧
        vt.length = (FlatStateValue.to_value_ref hash vf).length ∧
        hash vt = (FlatStateValue.to_value_ref hash vf).hash) := hne
    by_cases hk : kt = kf
    · by_cases hl : vt.length = (FlatStateValue.to_value_ref hash vf).length
      · have hh : ¬ hash vt = (FlatStateValue.to_value_ref hash vf).hash := by
          tauto
        simp [verifyLoop, hk, hl, hh]
      · simp [verifyLoop, hk, hl]
    · simp [verifyLoop, hk]
  | cons x xs ih =>
    intro p t2 f1 q f2 n hlen hagree hne
    cases f1 with
    | nil => simp at hlen
    | cons y ys =>
      obtain ⟨kt, vt⟩ := x
      obtain ⟨ky, vy⟩ := y
      have hmem : ((kt, vt), (ky, vy)) ∈
          ((kt, vt) :: xs).zip ((ky, vy) :: ys) := by
        rw [List.zip_cons_cons]; exact List.mem_cons_self _ _
      have hk : kt = ky := (hagree _ hmem).1
      have hl : vt.length = (FlatStateValue.to_value_ref hash vy).length :=
        (hagree _ hmem).2.1
      have hh : hash vt = (FlatStateValue.to_value_ref hash vy).hash :=
        (hagree _ hmem).2.2
      have hrec := ih p t2 ys q f2 (n + 1) (by simpa using hlen)
        (fun pr hpr => hagree pr
          (by rw [List.zip_cons_cons]; exact List.mem_cons_of_mem _ hpr)) hne
      simp only [List.cons_append, verifyLoop]
      rw [if_neg (not_not_intro hk), if_neg (not_not_intro hl),
        if_neg (not_not_intro hh)]
      refine hrec.trans ?_
      congr 1
      simp only [List.length_cons]
      omega

/-- Membership in the zip of truncations is membership in the zip. -/
theorem zip_take_subset {α β : Type} (t : List α) (f : List β) (m : Nat)
    (p : α × β) (hp : p ∈ (t.take m).zip (f.take m)) : p ∈ t.zip f := by
  induction t generalizing f m with
  | nil => simp [List.zip] at hp
  | cons x xs ih =>
    cases f with
    | nil => simp [List.zip] at hp
    | cons y ys =>
      cases m with
      | zero => simp at hp
      | succ m =>
        simp only [List.take, List.zip_cons_cons, List.mem_cons] at hp ⊢
        rcases hp with h | h
        · exact Or.inl h
        · exact Or.inr (ih ys m h)

/-- Claim C8: for a Ready shard, `verify` zip-iterates the trie entries (at
the chunk-extra state root of the flat head) against the flat entries and
reports success exactly when every visited pair agrees on key, value length
and value hash; the first disagreeing pair stops the iteration with the
count reached (the counter is incremented before the checks, so the failing
pair is included in the reported count). -/
theorem c8_verify_success_iff_agreement :
    ∀ (hash : FlatValue → Nat) (t : List (FlatKey × FlatValue))
      (f : List (FlatKey × FlatStateValue)),
    (verify hash t f = VerifyOutcome.success (min t.length f.length) ↔
      ∀ p ∈ t.zip f, pairAgrees hash p.1 p.2) ∧
    (∀ (t1 t2 : List (FlatKey × FlatValue)) (p : FlatKey × FlatValue)
      (f1 f2 : List (FlatKey × FlatStateValue)) (q : FlatKey × FlatStateValue),
      t = t1 ++ p :: t2 → f = f1 ++ q :: f2 → t1.length = f1.length →
      (∀ pr ∈ t1.zip f1, pairAgrees hash pr.1 pr.2) →
      ¬ pairAgrees hash p q →
      verify hash t f = VerifyOutcome.failed (t1.length + 1)) := by
  intro hash t f
  constructor
  · constructor
    · intro h
      exact verifyLoop_success_inv hash t f 0 _ h
    · intro h
      have := verifyLoop_success hash t f 0 h
      simpa [verify] using this
  · intro t1 t2 p f1 f2 q ht hf hlen hagree hne
    subst ht hf
    have := verifyLoop_failed hash t1 p t2 f1 q f2 0 hlen hagree hne
    simpa [verify] using this

/-- Claim C9: when the two iterators have different lengths but agree on
every zipped pair, `verify` still reports success with the shorter length as
the count; the surplus entries are never compared (the outcome equals the
outcome on the truncated iterators), so success does not imply equal entry
counts. -/
theorem c9_verify_ignores_surplus :
    ∀ (hash : FlatValue → Nat) (t : List (FlatKey × FlatValue))
      (f : List (FlatKey × FlatStateValue)),
    t.length ≠ f.length →
    (∀ p ∈ t.zip f, pairAgrees hash p.1 p.2) →
    verify hash t f = VerifyOutcome.success (min t.length f.length) ∧
    verify hash t f =
      verify hash (t.take (min t.length f.length))
        (f.take (min t.length f.length)) := by
  intro hash t f hlen hagree
  have h1 := verifyLoop_success hash t f 0 hagree
  have h2 := verifyLoop_success hash (t.take (min t.length f.length))
    (f.take (min t.length f.length)) 0 ?_
  · constructor
    · simpa [verify] using h1
    · rw [verify, verify, h1, h2]
      congr 1
      simp only [List.length_take]
      omega
  · intro p hp
    exact hagree p (zip_take_subset _ _ _ _ hp)

/-- Claim C4: `produce_block_on` persists `latest_known = (height,
raw_timestamp)` to the store before the produced block reaches the caller
(a `some` block always comes with the already-updated store state);
`can_produce_block` answers `false` for every height at most the stored
latest-known height, so no block is produced there; and the stored
latest-known height never decreases across a call. -/
theorem c4_no_double_production :
    ∀ (env : ProduceEnv) (store : ChainStoreState) (height : Nat),
    (∀ (b : ProducedBlock) (store' : ChainStoreState),
      produce_block_on env store height = (some b, store') →
      store'.latest_known = ⟨height, b.raw_timestamp⟩ ∧
      store.latest_known.height < height) ∧
    (∀ (me proposer : AccountId), height ≤ store.latest_known.height →
      can_produce_block env store height me proposer = false) ∧
    store.latest_known.height ≤
      (produce_block_on env store height).2.latest_known.height := by
  intro env store height
  refine ⟨?_, ?_, ?_⟩
  · intro b store' hprod
    unfold produce_block_on at hprod
    cases hsig : env.validator_signer with
    | none => rw [hsig] at hprod; simp at hprod
    | some me =>
      cases hprop : env.next_block_proposer with
      | none => rw [hsig, hprop] at hprod; simp at hprod
      | some proposer =>
        rw [hsig, hprop] at hprod
        by_cases h1 : env.pre_steps_ok
        · by_cases h2 : can_produce_block env store height me proposer
          · by_cases h3 : env.validator_pk_matches
            · by_cases h4 : !env.produce_empty_blocks &&
                env.new_chunks_is_empty
              · simp [h1, h2, h3, h4] at hprod
              · by_cases h5 : env.later_steps_ok
                · simp [h1, h2, h3, h4, h5] at hprod
                  obtain ⟨hb, hst⟩ := hprod
                  subst hb
                  subst hst
                  refine ⟨rfl, ?_⟩
                  unfold can_produce_block at h2
                  by_cases hacc : me ≠ proposer
                  · simp [hacc] at h2
                  · by_cases hle : height ≤ store.latest_known.height
                    · simp [hacc, hle] at h2
                    · omega
                · simp [h1, h2, h3, h4, h5] at hprod
            · simp [h1, h2, h3] at hprod
          · simp [h1, h2] at hprod
        · simp [h1] at hprod
  · intro me proposer hle
    unfold can_produce_block
    by_cases hacc : me ≠ proposer
    · simp [hacc]
    · simp [hacc, hle]
  · unfold produce_block_on
    cases hsig : env.validator_signer with
    | none => simp
    | some me =>
      cases hprop : env.next_block_proposer with
      | none => simp
      | some proposer =>
        by_cases h1 : env.pre_steps_ok
        · by_cases h2 : can_produce_block env store height me proposer
          · by_cases h3 : env.validator_pk_matches
            · by_cases h4 : !env.produce_empty_blocks &&
                env.new_chunks_is_empty
              · simp [h1, h2, h3, h4]
              · by_cases h5 : env.later_steps_ok
                · simp [h1, h2, h3, h4, h5]
                  unfold can_produce_block at h2
                  by_cases hacc : me ≠ proposer
                  · simp [hacc] at h2
                  · by_cases hle : height ≤ store.latest_known.height
                    · simp [hacc, hle] at h2
                    · omega
                · simp [h1, h2, h3, h4, h5]
            · simp [h1, h2, h3]
          · simp [h1, h2]
        · simp [h1]

theorem c4_witness :
    (∀ (b : ProducedBlock) (store' : ChainStoreState),
      produce_block_on c4Env ⟨⟨6, 99⟩⟩ 7 = (some b, store') →
      store'.latest_known = ⟨7, b.raw_timestamp⟩ ∧ 6 < 7) ∧
    (∀ (me proposer : AccountId), 7 ≤ 6 →
      can_produce_block c4Env ⟨⟨6, 99⟩⟩ 7 me proposer = false) ∧
    (6 : Nat) ≤ (produce_block_on c4Env ⟨⟨6, 99⟩⟩ 7).2.latest_known.height :=
  c4_no_double_production c4Env ⟨⟨6, 99⟩⟩ 7

/-- Claim C5: an `Incorrect` hash-or-signature verification makes
`receive_block_impl` ban the sending peer with `BadBlockHeader` and reject
the block with `InvalidSignature`; any other validation failure classified
as bad data also bans the peer — except `InvalidBlockFutureTime`, which is
rejected without a ban. -/
theorem c5_ban_on_invalid_block :
    ∀ (env : ReceiveEnv) (block_height : Nat) (peer : PeerId) (req : Bool),
    check_block_height env block_height req = true →
    ((env.verify_hash_sig = VerifyBlockHashAndSignatureResult.Incorrect →
      receive_block_impl env block_height peer req =
        ([NetAction.banPeer peer ReasonForBan.BadBlockHeader],
          some ChainError.invalidSignature)) ∧
    (∀ e, env.verify_hash_sig ≠ VerifyBlockHashAndSignatureResult.Incorrect →
      env.header_validation = some e → e.is_bad_data = true →
      e ≠ ChainError.invalidBlockFutureTime →
      receive_block_impl env block_height peer req =
        ([NetAction.banPeer peer ReasonForBan.BadBlockHeader], some e)) ∧
    (env.verify_hash_sig ≠ VerifyBlockHashAndSignatureResult.Incorrect →
      env.header_validation = some ChainError.invalidBlockFutureTime →
      receive_block_impl env block_height peer req =
        ([], some ChainError.invalidBlockFutureTime))) := by
  intro env block_height peer req hheight
  refine ⟨?_, ?_, ?_⟩
  · intro hver
    unfold receive_block_impl
    simp [hheight, hver]
  · intro e hver hval hbad hne
    unfold receive_block_impl verify_and_rebroadcast_block
    simp [hheight, hver, hval, hbad, hne]
  · intro hver hval
    unfold receive_block_impl verify_and_rebroadcast_block
    simp [hheight, hver, hval, ChainError.is_bad_data]

theorem c5_witness :
    (c5Env.verify_hash_sig = VerifyBlockHashAndSignatureResult.Incorrect →
      receive_block_impl c5Env 11 42 false =
        ([NetAction.banPeer 42 ReasonForBan.BadBlockHeader],
          some ChainError.invalidSignature)) ∧
    (∀ e, c5Env.verify_hash_sig ≠ VerifyBlockHashAndSignatureResult.Incorrect →
      c5Env.header_validation = some e → e.is_bad_data = true →
      e ≠ ChainError.invalidBlockFutureTime →
      receive_block_impl c5Env 11 42 false =
        ([NetAction.banPeer 42 ReasonForBan.BadBlockHeader], some e)) ∧
    (c5Env.verify_hash_sig ≠ VerifyBlockHashAndSignatureResult.Incorrect →
      c5Env.header_validation = some ChainError.invalidBlockFutureTime →
      receive_block_impl c5Env 11 42 false =
        ([], some ChainError.invalidBlockFutureTime)) :=
  c5_ban_on_invalid_block c5Env 11 42 false (by decide)

theorem c6_witness :
    (c6Env.is_syncing = true → false = false →
      (c6Env.tail ≤ c6Env.head_height + BLOCK_HORIZON - 1 →
        (c6Env.prev_hash_is_head = true ∨ c6Env.is_height_processed = false) →
        check_block_height c6Env (c6Env.head_height + BLOCK_HORIZON - 1)
          false = true) ∧
      check_block_height c6Env (c6Env.head_height + BLOCK_HORIZON) false =
        false) ∧
    ((c6Env.tail < c6Env.head_height + BLOCK_HORIZON ∨
        c6Env.is_syncing = false ∨ false = true) →
      (false = true ∨ c6Env.prev_hash_is_head = true ∨
        c6Env.is_height_processed = false) →
      check_block_height c6Env c6Env.tail false = true) ∧
    (1 ≤ c6Env.tail →
      check_block_height c6Env (c6Env.tail - 1) false = false) :=
  c6_height_precheck_boundaries c6Env false

/-- Pool contents after the chunk walk of
`remove_transactions_for_block`. -/
theorem pool_remove_foldl (env : PoolEnv) (c : Nat × ChunkM → Bool) :
    ∀ (l : List (Nat × ChunkM)) (st : TxPoolState) (u : ShardUIdM),
    ((l.foldl (fun st p => if c p then
        pool_remove_transactions st (env.shard_uid p.1) p.2.transactions
      else st) st).pools) u = st.pools u \ shardTxsOf env c l u := by
  intro l
  induction l with
  | nil => intro st u; simp [shardTxsOf]
  | cons p l ih =>
    intro st u
    rw [List.foldl_cons, ih]
    by_cases hc : c p
    · by_cases hu : env.shard_uid p.1 = u
      · simp only [shardTxsOf, List.foldr_cons, hc, hu, decide_True,
          Bool.and_true, Bool.true_and, if_true, pool_remove_transactions,
          if_pos rfl]
        ext x
        simp only [Finset.mem_sdiff, Finset.mem_union]
        tauto
      · have hu' : ¬ (u = env.shard_uid p.1) := fun h => hu h.symm
        simp [shardTxsOf, hc, hu, hu', pool_remove_transactions]
    · simp [shardTxsOf, hc]

/-- Pool contents after the chunk walk of
`reintroduce_transactions_for_block`. -/
theorem pool_reintroduce_foldl (env : PoolEnv) (c : Nat × ChunkM → Bool) :
    ∀ (l : List (Nat × ChunkM)) (st : TxPoolState) (u : ShardUIdM),
    ((l.foldl (fun st p => if c p then
        pool_reintroduce_transactions st (env.shard_uid p.1) p.2.transactions
      else st) st).pools) u = st.pools u ∪ shardTxsOf env c l u := by
  intro l
  induction l with
  | nil => intro st u; simp [shardTxsOf]
  | cons p l ih =>
    intro st u
    rw [List.foldl_cons, ih]
    by_cases hc : c p
    · by_cases hu : env.shard_uid p.1 = u
      · simp only [shardTxsOf, List.foldr_cons, hc, hu, decide_True,
          Bool.and_true, Bool.true_and, if_true, pool_reintroduce_transactions,
          if_pos rfl]
        ext x
        simp only [Finset.mem_union]
        tauto
      · have hu' : ¬ (u = env.shard_uid p.1) := fun h => hu h.symm
        simp [shardTxsOf, hc, hu, hu', pool_reintroduce_transactions]
    · simp [shardTxsOf, hc]

/-- The chunk walks do not touch the challenge set. -/
theorem pool_remove_foldl_challenges (env : PoolEnv)
    (c : Nat × ChunkM → Bool) :
    ∀ (l : List (Nat × ChunkM)) (st : TxPoolState),
    (l.foldl (fun st p => if c p then
        pool_remove_transactions st (env.shard_uid p.1) p.2.transactions
      else st) st).challenges = st.challenges := by
  intro l
  induction l with
  | nil => intro st; rfl
  | cons p l ih =>
    intro st
    rw [List.foldl_cons, ih]
    by_cases hc : c p <;> simp [hc, pool_remove_transactions]

/-- The reintroduction chunk walk does not touch the challenge set. -/
theorem pool_reintroduce_foldl_challenges (env : PoolEnv)
    (c : Nat × ChunkM → Bool) :
    ∀ (l : List (Nat × ChunkM)) (st : TxPoolState),
    (l.foldl (fun st p => if c p then
        pool_reintroduce_transactions st (env.shard_uid p.1) p.2.transactions
      else st) st).challenges = st.challenges := by
  intro l
  induction l with
  | nil => intro st; rfl
  | cons p l ih =>
    intro st
    rw [List.foldl_cons, ih]
    by_cases hc : c p <;> simp [hc, pool_reintroduce_transactions]

/-- Folding `erase` removes the list from the set. -/
theorem erase_foldl : ∀ (l : List Nat) (C : Finset Nat),
    l.foldl (fun c h => c.erase h) C = C \ l.toFinset := by
  intro l
  induction l with
  | nil => intro C; simp
  | cons h l ih =>
    intro C
    rw [List.foldl_cons, ih]
    ext x
    simp only [Finset.mem_sdiff, Finset.mem_erase, List.toFinset_cons,
      Finset.mem_insert, List.mem_toFinset]
    tauto

/-- Folding `insert` adds the list to the set. -/
theorem insert_foldl : ∀ (l : List Nat) (C : Finset Nat),
    l.foldl (fun c h => insert h c) C = C ∪ l.toFinset := by
  intro l
  induction l with
  | nil => intro C; simp
  | cons h l ih =>
    intro C
    rw [List.foldl_cons, ih]
    ext x
    simp only [Finset.mem_union, Finset.mem_insert, List.toFinset_cons,
      List.mem_toFinset]
    tauto

/-- The touched transactions are contained in the pool whenever each
touched chunk's transactions are. -/
theorem shardTxsOf_subset (env : PoolEnv) (c : Nat × ChunkM → Bool)
    (P : Finset Tx) :
    ∀ (l : List (Nat × ChunkM)) (u : ShardUIdM),
    (∀ p ∈ l, c p = true → env.shard_uid p.1 = u →
      p.2.transactions.toFinset ⊆ P) →
    shardTxsOf env c l u ⊆ P := by
  intro l
  induction l with
  | nil => intro u _; simp [shardTxsOf]
  | cons p l ih =>
    intro u hsub
    by_cases hc : c p
    · by_cases hu : env.shard_uid p.1 = u
      · have he : shardTxsOf env c (p :: l) u =
            p.2.transactions.toFinset ∪ shardTxsOf env c l u := by
          simp [shardTxsOf, hc, hu]
        rw [he]
        exact Finset.union_subset
          (hsub p (List.mem_cons_self _ _) hc hu)
          (ih u (fun q hq => hsub q (List.mem_cons_of_mem _ hq)))
      · have he : shardTxsOf env c (p :: l) u = shardTxsOf env c l u := by
          simp [shardTxsOf, hc, hu]
        rw [he]
        exact ih u (fun q hq => hsub q (List.mem_cons_of_mem _ hq))
    · have he : shardTxsOf env c (p :: l) u = shardTxsOf env c l u := by
        simp [shardTxsOf, hc]
      rw [he]
      exact ih u (fun q hq => hsub q (List.mem_cons_of_mem _ hq))

/-- Claim C7 (amended): removing then reintroducing the transactions of the
same block restores the pool, provided the shard-care predicate answers the
same under the two `is_me` flags the two functions pass, every removed
transaction was in the pool, and the block's challenges were all
registered.  Without these provisos the round trip can grow the pool (see
the counterexample). -/
theorem c7_pool_roundtrip_amended :
    ∀ (env : PoolEnv) (block : BlockM) (st : TxPoolState),
    (∀ i, env.cares_about_shard i true = env.cares_about_shard i false) →
    (∀ p ∈ block.chunks.enum, block.height = p.2.height_included →
      env.cares_about_shard p.1 true = true →
      p.2.transactions.toFinset ⊆ st.pools (env.shard_uid p.1)) →
    block.challenges.toFinset ⊆ st.challenges →
    (∀ u, (reintroduce_transactions_for_block env block
        (remove_transactions_for_block env block st)).pools u = st.pools u) ∧
    (reintroduce_transactions_for_block env block
        (remove_transactions_for_block env block st)).challenges =
      st.challenges := by
  intro env block st hcare hsub hch
  have hcond : (fun p : Nat × ChunkM =>
      decide (block.height = p.2.height_included) &&
        env.cares_about_shard p.1 false) =
      (fun p : Nat × ChunkM =>
      decide (block.height = p.2.height_included) &&
        env.cares_about_shard p.1 true) := by
    funext p
    rw [hcare p.1]
  have hS : ∀ u, shardTxsOf env (fun p =>
      decide (block.height = p.2.height_included) &&
        env.cares_about_shard p.1 true) block.chunks.enum u ⊆ st.pools u := by
    intro u
    refine shardTxsOf_subset env _ _ block.chunks.enum u ?_
    intro p hp hc hu
    have hh : block.height = p.2.height_included ∧
        env.cares_about_shard p.1 true = true := by
      constructor
      · exact of_decide_eq_true (Bool.and_elim_left hc)
      · exact Bool.and_elim_right hc
    rw [← hu]
    exact hsub p hp hh.1 hh.2
  constructor
  · intro u
    have hre : (reintroduce_transactions_for_block env block
        (remove_transactions_for_block env block st)).pools u =
        (remove_transactions_for_block env block st).pools u ∪
          shardTxsOf env (fun p =>
            decide (block.height = p.2.height_included) &&
              env.cares_about_shard p.1 false) block.chunks.enum u :=
      pool_reintroduce_foldl env _ block.chunks.enum _ u
    have hrm : (remove_transactions_for_block env block st).pools u =
        st.pools u \ shardTxsOf env (fun p =>
          decide (block.height = p.2.height_included) &&
            env.cares_about_shard p.1 true) block.chunks.enum u :=
      pool_remove_foldl env _ block.chunks.enum st u
    rw [hre, hrm, hcond]
    exact Finset.sdiff_union_of_subset (hS u)
  · simp only [reintroduce_transactions_for_block,
      remove_transactions_for_block]
    rw [insert_foldl, pool_reintroduce_foldl_challenges, erase_foldl,
      pool_remove_foldl_challenges]
    exact Finset.sdiff_union_of_subset hch

/-- Claim C7 (counterexample): on an initially empty pool, removing then
reintroducing a block whose chunk carries transaction `7` leaves the pool
with `7` in it — the round trip is not the identity. -/
theorem c7_counterexample :
    (reintroduce_transactions_for_block c7Env c7Block
      (remove_transactions_for_block c7Env c7Block c7EmptyPool)).pools 0 ≠
    c7EmptyPool.pools 0 := by decide

/-- Witness for C7 at a pool already containing the block's transaction. -/
theorem c7_witness :
    (reintroduce_transactions_for_block c7Env c7Block
      (remove_transactions_for_block c7Env c7Block c7FullPool)).pools 0 =
    c7FullPool.pools 0 :=
  (c7_pool_roundtrip_amended c7Env c7Block c7FullPool (fun _ => rfl)
    (by decide) (by decide)).1 0

/-! ### Selection-loop theory -/

/-- `ceilDivN a b ≤ y` whenever `a < y * b`. -/
theorem ceilDivN_le_of_lt (a b y : Nat) (h : a < y * b) : ceilDivN a b ≤ y := by
  rcases Nat.eq_zero_or_pos b with hb | hb
  · subst hb
    simp [ceilDivN]
  · have h' : a ≤ b * y := by
      calc a ≤ y * b := Nat.le_of_lt h
      _ = b * y := Nat.mul_comm _ _
    unfold ceilDivN
    rw [Nat.div_le_iff_le_mul_add_pred hb]
    omega

/-- Full specification of the selection loop: the accepted validators are the
already-accumulated ones followed by a front segment of the remaining
proposals, the total is zero when nothing was accepted, and the last
accepted validator passed the stake-ratio test against the final total. -/
theorem selectLoop_spec (r : RatioN) :
    ∀ (fuel : Nat) (props acc : List ValidatorStake) (total : Nat)
      (res : List ValidatorStake × List ValidatorStake × Nat),
    selectLoop r fuel props acc total = some res →
    (acc = [] → total = 0) →
    (∀ p, acc.head? = some p → r.num * total < p.stake * r.den) →
    (∃ taken, res.1 = acc.reverse ++ taken ∧ props = taken ++ res.2.1) ∧
    (res.1 = [] → res.2.2 = 0) ∧
    (∀ p, res.1.getLast? = some p → r.num * res.2.2 < p.stake * r.den) := by
  intro fuel
  induction fuel with
  | zero =>
    intro props acc total res hres hemp hhead
    simp only [selectLoop, Option.some.injEq] at hres
    subst hres
    refine ⟨⟨[], by simp, rfl⟩, ?_, ?_⟩
    · intro h
      exact hemp (by simpa using h)
    · intro p hp
      rw [List.getLast?_reverse] at hp
      exact hhead p hp
  | succ fuel ih =>
    intro props acc total res hres hemp hhead
    cases props with
    | nil =>
      simp only [selectLoop, Option.some.injEq] at hres
      subst hres
      refine ⟨⟨[], by simp, rfl⟩, ?_, ?_⟩
      · intro h
        exact hemp (by simpa using h)
      · intro p hp
        rw [List.getLast?_reverse] at hp
        exact hhead p hp
    | cons p rest =>
      simp only [selectLoop] at hres
      by_cases h0 : total + p.stake = 0
      · rw [if_pos h0] at hres
        exact absurd hres (by simp)
      · rw [if_neg h0] at hres
        by_cases hacc : r.num * (total + p.stake) < p.stake * r.den
        · rw [if_pos hacc] at hres
          obtain ⟨⟨taken, h1, h2⟩, h3, h4⟩ := ih rest (p :: acc)
            (total + p.stake) res hres (by simp)
            (by intro q hq; simp at hq; exact hq ▸ hacc)
          refine ⟨⟨p :: taken, ?_, ?_⟩, h3, h4⟩
          · rw [h1]
            simp
          · rw [h2]
            simp
        · rw [if_neg hacc] at hres
          simp only [Option.some.injEq] at hres
          subst hres
          refine ⟨⟨[], by simp, rfl⟩, ?_, ?_⟩
          · intro h
            exact hemp (by simpa using h)
          · intro q hq
            rw [List.getLast?_reverse] at hq
            exact hhead q hq

/-- In a `popsFirst`-sorted list, the last element has the smallest stake. -/
theorem sorted_getLast?_stake_le :
    ∀ (l : List ValidatorStake), List.Pairwise popsFirst l →
    ∀ v ∈ l, ∀ p, l.getLast? = some p → p.stake ≤ v.stake := by
  intro l
  induction l with
  | nil => intro _ v hv; simp at hv
  | cons x xs ih =>
    intro hpair v hv p hp
    rcases List.mem_cons.mp hv with hvx | hvxs
    · subst hvx
      cases xs with
      | nil =>
        simp at hp
        subst hp
        exact Nat.le_refl _
      | cons y ys =>
        rw [List.getLast?_cons_cons] at hp
        have hpmem : p ∈ y :: ys := by
          have hmem : p ∈ (y :: ys).getLast? := by
            rw [hp]
            rfl
          obtain ⟨hne, heq⟩ := List.mem_getLast?_eq_getLast hmem
          exact heq ▸ List.getLast_mem hne
        have := (List.pairwise_cons.mp hpair).1 p hpmem
        rcases this with h | ⟨h, _⟩
        · exact Nat.le_of_lt h
        · exact Nat.le_of_eq h.symm
    · cases xs with
      | nil => simp at hvxs
      | cons y ys =>
        rw [List.getLast?_cons_cons] at hp
        exact ih (List.pairwise_cons.mp hpair).2 v hvxs p hp

/-- `select_validators` on a sorted heap without `FixStakingThreshold`:
the selected validators are a front segment of the heap, and each selected
stake is at least `threshold - 1` (at least `threshold` when the stop was
not the filled-all-seats one). -/
theorem select_validators_stake_bound (props : List ValidatorStake)
    (maxN : Nat) (r : RatioN) (hsorted : List.Pairwise popsFirst props)
    (sel rest : List ValidatorStake) (th : Nat)
    (h : select_validators props maxN r false = some (sel, rest, th)) :
    props = sel ++ rest ∧ (∀ v ∈ sel, th ≤ v.stake + 1) := by
  unfold select_validators at h
  cases hloop : selectLoop r maxN props [] 0 with
  | none => rw [hloop] at h; exact absurd h (by simp)
  | some res =>
    obtain ⟨sel0, rest0, tot0⟩ := res
    rw [hloop] at h
    obtain ⟨⟨taken, h1, h2⟩, h3, h4⟩ := selectLoop_spec r maxN props [] 0
      (sel0, rest0, tot0) hloop (fun _ => rfl) (by intro p hp; simp at hp)
    simp only [List.reverse_nil, List.nil_append] at h1
    dsimp only at h h1 h2 h3 h4
    subst h1
    by_cases hfill : sel0.length = maxN
    · rw [if_pos hfill] at h
      cases hlast : sel0.getLast? with
      | none => rw [hlast] at h; exact absurd h (by simp)
      | some v =>
        rw [hlast] at h
        simp only [Option.some.injEq, Prod.mk.injEq] at h
        obtain ⟨hsel, hrest, hth⟩ := h
        subst hsel hrest
        constructor
        · exact h2
        · intro w hw
          have hsort : List.Pairwise popsFirst sel0 := by
            rw [h2] at hsorted
            exact (List.pairwise_append.mp hsorted).1
          have hvw := sorted_getLast?_stake_le sel0 hsort w hw v hlast
          exact hth ▸ Nat.succ_le_succ hvw
    · rw [if_neg hfill, if_neg (Bool.false_ne_true)] at h
      simp only [Option.some.injEq, Prod.mk.injEq] at h
      obtain ⟨hsel, hrest, hth⟩ := h
      subst hsel hrest
      constructor
      · exact h2
      · intro w hw
        cases hlast : sel0.getLast? with
        | none =>
          rw [List.getLast?_eq_none_iff] at hlast
          subst hlast
          simp at hw
        | some v =>
          have hbound := h4 v hlast
          have hceil : ceilDivN (r.num * tot0) r.den ≤ v.stake :=
            ceilDivN_le_of_lt _ _ _ hbound
          have hsort : List.Pairwise popsFirst sel0 := by
            rw [h2] at hsorted
            exact (List.pairwise_append.mp hsorted).1
          have hvw := sorted_getLast?_stake_le sel0 hsort w hw v hlast
          exact hth ▸ ((hceil.trans hvw).trans (Nat.le_succ _))

/-! ### Association-map lemmas -/

/-- `l.any` over the key predicate agrees with `alookup ... |>.isSome`. -/
theorem any_key_eq_alookup_isSome {β : Type} :
    ∀ (l : List (AccountId × β)) (a : AccountId),
    l.any (fun p => p.1 = a) = (alookup l a).isSome := by
  intro l a
  induction l with
  | nil => rfl
  | cons p l ih =>
    by_cases hp : p.1 = a
    · simp [alookup, hp]
    · simp [alookup, hp, ih]

/-- Replacing the entries keyed `b` leaves key presence unchanged. -/
theorem alookup_map_keyfix {β : Type} (b : AccountId) (v : β) :
    ∀ (l : List (AccountId × β)) (a : AccountId),
    (alookup (l.map (fun p => if p.1 = b then (b, v) else p)) a).isSome =
      (alookup l a).isSome := by
  intro l a
  induction l with
  | nil => rfl
  | cons p l ih =>
    by_cases hpb : p.1 = b
    · by_cases hpa : p.1 = a
      · have hba : b = a := hpb ▸ hpa
        rw [List.map_cons, if_pos hpb]
        simp [alookup, hba, hpa]
      · have hba : ¬ (b = a) := fun h => hpa (hpb.trans h)
        rw [List.map_cons, if_pos hpb]
        simp [alookup, hba, hpa, ih]
    · by_cases hpa : p.1 = a
      · rw [List.map_cons, if_neg hpb]
        simp [alookup, hpa]
      · rw [List.map_cons, if_neg hpb]
        simp [alookup, hpa, ih]

/-- Key presence across an append. -/
theorem alookup_append_isSome {β : Type} :
    ∀ (l l' : List (AccountId × β)) (a : AccountId),
    (alookup (l ++ l') a).isSome =
      ((alookup l a).isSome || (alookup l' a).isSome) := by
  intro l l' a
  induction l with
  | nil => simp [alookup]
  | cons p l ih =>
    by_cases hp : p.1 = a
    · simp [alookup, hp]
    · simp [alookup, hp, ih]

/-- Key presence after an insert-with-overwrite: the old keys plus the new
one. -/
theorem alookup_ainsert_isSome {β : Type} (l : List (AccountId × β))
    (b : AccountId) (v : β) (a : AccountId) :
    (alookup (ainsert l b v) a).isSome = true ↔
      (alookup l a).isSome = true ∨ a = b := by
  unfold ainsert
  by_cases hany : l.any (fun p => p.1 = b)
  · rw [if_pos hany, alookup_map_keyfix]
    constructor
    · exact Or.inl
    · rintro (h | rfl)
      · exact h
      · rw [← any_key_eq_alookup_isSome]
        exact hany
  · rw [if_neg hany, alookup_append_isSome]
    by_cases hba : b = a
    · constructor
      · intro _
        exact Or.inr hba.symm
      · intro _
        simp [alookup, hba]
    · have hsingle : (alookup [(b, v)] a).isSome = false := by
        simp [alookup, hba]
      rw [hsingle]
      simp only [Bool.or_false]
      constructor
      · exact Or.inl
      · rintro (h | rfl)
        · exact h
        · exact absurd rfl hba

/-- Accounts present after a keyed insert into `proposals_by_account`. -/
theorem hasAccount_vinsert (l : List ValidatorStake) (w : ValidatorStake)
    (a : AccountId) :
    hasAccount (vinsert l w) a ↔ hasAccount l a ∨ a = w.account_id := by
  unfold vinsert
  by_cases hany : l.any (fun u => u.account_id = w.account_id)
  · rw [if_pos hany]
    constructor
    · rintro ⟨x, hx, hxa⟩
      obtain ⟨u, hu, hux⟩ := List.mem_map.mp hx
      by_cases huw : u.account_id = w.account_id
      · rw [if_pos huw] at hux
        exact Or.inr (by rw [← hxa, ← hux])
      · rw [if_neg huw] at hux
        exact Or.inl ⟨u, hu, by rw [hux, hxa]⟩
    · rintro (⟨u, hu, hua⟩ | rfl)
      · by_cases huw : u.account_id = w.account_id
        · refine ⟨w, List.mem_map.mpr ⟨u, hu, by rw [if_pos huw]⟩, ?_⟩
          rw [← huw, hua]
        · exact ⟨u, List.mem_map.mpr ⟨u, hu, by rw [if_neg huw]⟩, hua⟩
      · obtain ⟨u, hu, huw⟩ := List.any_eq_true.mp hany
        refine ⟨w, List.mem_map.mpr ⟨u, hu, ?_⟩, rfl⟩
        rw [if_pos (of_decide_eq_true huw)]
  · rw [if_neg hany]
    constructor
    · rintro ⟨x, hx, hxa⟩
      rcases List.mem_append.mp hx with h | h
      · exact Or.inl ⟨x, h, hxa⟩
      · simp only [List.mem_singleton] at h
        exact Or.inr (by rw [← hxa, h])
    · rintro (⟨u, hu, hua⟩ | rfl)
      · exact ⟨u, List.mem_append.mpr (Or.inl hu), hua⟩
      · exact ⟨w, List.mem_append.mpr (Or.inr (List.mem_singleton.mpr rfl)),
          rfl⟩

/-- `vlookup` finds exactly the present accounts. -/
theorem vlookup_isSome_iff :
    ∀ (l : List ValidatorStake) (a : AccountId),
    (vlookup l a).isSome = true ↔ hasAccount l a := by
  intro l a
  induction l with
  | nil => simp [vlookup, hasAccount]
  | cons v l ih =>
    by_cases hv : v.account_id = a
    · simp [vlookup, hasAccount, hv]
    · simp only [vlookup, if_neg hv, hasAccount, List.mem_cons]
      rw [ih]
      unfold hasAccount
      constructor
      · rintro ⟨u, hu, hua⟩
        exact ⟨u, Or.inr hu, hua⟩
      · rintro ⟨u, hu | hu, hua⟩
        · exact absurd (hu ▸ hua) hv
        · exact ⟨u, hu, hua⟩

/-- What `vlookup` finds carries the looked-up account. -/
theorem vlookup_account :
    ∀ (l : List ValidatorStake) (a : AccountId) (u : ValidatorStake),
    vlookup l a = some u → u.account_id = a := by
  intro l a u h
  induction l with
  | nil => simp [vlookup] at h
  | cons v l ih =>
    by_cases hv : v.account_id = a
    · rw [vlookup, if_pos hv] at h
      cases h
      exact hv
    · rw [vlookup, if_neg hv] at h
      exact ih h

/-! ### Rollover lemmas -/

/-- Every rollover step is monotone on the accounts of
`proposals_by_account`. -/
theorem rollover_validator_step_mono
    (rew : List (AccountId × Balance)) (kick : List (AccountId × KickoutReason))
    (st : RolloverState) (r : ValidatorStake) (a : AccountId)
    (h : hasAccount st.proposals_by_account a) :
    hasAccount ((rolloverValidatorStep rew kick st r).proposals_by_account)
      a := by
  unfold rolloverValidatorStep
  by_cases hk : (alookup kick r.account_id).isSome
  · rw [if_pos hk]
    exact h
  · rw [if_neg hk]
    exact (hasAccount_vinsert _ _ _).mpr (Or.inl h)

theorem rollover_validator_fold_mono
    (rew : List (AccountId × Balance)) (kick : List (AccountId × KickoutReason)) :
    ∀ (rs : List ValidatorStake) (st : RolloverState) (a : AccountId),
    hasAccount st.proposals_by_account a →
    hasAccount ((rs.foldl (rolloverValidatorStep rew kick)
      st).proposals_by_account) a := by
  intro rs
  induction rs with
  | nil => intro st a h; exact h
  | cons r rs ih =>
    intro st a h
    exact ih _ a (rollover_validator_step_mono rew kick st r a h)

/-- A previous-epoch validator that is not kicked ends up (by account) in
`proposals_by_account`. -/
theorem rollover_validator_fold_covers
    (rew : List (AccountId × Balance)) (kick : List (AccountId × KickoutReason)) :
    ∀ (rs : List ValidatorStake) (st : RolloverState) (a : AccountId),
    (∃ r ∈ rs, r.account_id = a) →
    (alookup kick a).isSome = false →
    hasAccount ((rs.foldl (rolloverValidatorStep rew kick)
      st).proposals_by_account) a := by
  intro rs
  induction rs with
  | nil => intro st a h _; simp at h
  | cons r rs ih =>
    intro st a hmem hk
    rcases hmem with ⟨r', hr', hra⟩
    rcases List.mem_cons.mp hr' with h | h
    · subst h
      rw [List.foldl_cons]
      refine rollover_validator_fold_mono rew kick rs _ a ?_
      unfold rolloverValidatorStep
      rw [hra, if_neg (by rw [hk]; exact Bool.false_ne_true)]
      refine (hasAccount_vinsert _ _ _).mpr (Or.inr ?_)
      cases hvl : vlookup st.proposals_by_account a with
      | none =>
        simp only [Option.getD_none]
        cases alookup rew r'.account_id <;> simp [hra]
      | some u =>
        simp only [Option.getD_some]
        have hu := vlookup_account _ _ _ hvl
        cases alookup rew u.account_id <;> simp [hu]
    · exact ih _ a ⟨r', h, hra⟩ hk

/-- The fisherman rollover never touches `proposals_by_account`. -/
theorem rollover_fisherman_fold_props
    (kick : List (AccountId × KickoutReason)) :
    ∀ (fs : List ValidatorStake) (st : RolloverState),
    ((fs.foldl (rolloverFishermanStep kick) st).proposals_by_account) =
      st.proposals_by_account := by
  intro fs
  induction fs with
  | nil => intro st; rfl
  | cons r fs ih =>
    intro st
    rw [List.foldl_cons, ih]
    unfold rolloverFishermanStep
    by_cases hk : (alookup kick r.account_id).isSome
    · rw [if_pos hk]
    · rw [if_neg hk]
      by_cases hv : (vlookup st.proposals_by_account r.account_id).isSome
      · rw [if_pos hv]
      · rw [if_neg hv]

/-- The fisherman rollover only appends to the carried fishermen. -/
theorem rollover_fisherman_fold_fish_mono
    (kick : List (AccountId × KickoutReason)) :
    ∀ (fs : List ValidatorStake) (st : RolloverState) (a : AccountId),
    (∃ v ∈ st.fishermen, v.account_id = a) →
    ∃ v ∈ (fs.foldl (rolloverFishermanStep kick) st).fishermen,
      v.account_id = a := by
  intro fs
  induction fs with
  | nil => intro st a h; exact h
  | cons r fs ih =>
    intro st a h
    rw [List.foldl_cons]
    refine ih _ a ?_
    unfold rolloverFishermanStep
    by_cases hk : (alookup kick r.account_id).isSome
    · rw [if_pos hk]
      exact h
    · rw [if_neg hk]
      by_cases hv : (vlookup st.proposals_by_account r.account_id).isSome
      · rw [if_pos hv]
        exact h
      · rw [if_neg hv]
        obtain ⟨v, hv', hva⟩ := h
        exact ⟨v, List.mem_append.mpr (Or.inl hv'), hva⟩

/-- A previous-epoch fisherman that is not kicked either had a proposal (so
its account is in `proposals_by_account`) or is carried over into the
fishermen. -/
theorem rollover_fisherman_fold_covers
    (kick : List (AccountId × KickoutReason)) :
    ∀ (fs : List ValidatorStake) (st : RolloverState) (a : AccountId),
    (∃ r ∈ fs, r.account_id = a) →
    (alookup kick a).isSome = false →
    hasAccount st.proposals_by_account a ∨
    ∃ v ∈ (fs.foldl (rolloverFishermanStep kick) st).fishermen,
      v.account_id = a := by
  intro fs
  induction fs with
  | nil => intro st a h _; simp at h
  | cons r fs ih =>
    intro st a hmem hk
    rcases hmem with ⟨r', hr', hra⟩
    rcases List.mem_cons.mp hr' with h | h
    · subst h
      rw [List.foldl_cons]
      unfold rolloverFishermanStep
      rw [hra, if_neg (by rw [hk]; exact Bool.false_ne_true)]
      by_cases hv : (vlookup st.proposals_by_account a).isSome
      · rw [if_pos hv]
        exact Or.inl ((vlookup_isSome_iff _ _).mp hv)
      · rw [if_neg hv]
        refine Or.inr (rollover_fisherman_fold_fish_mono kick fs _ a ?_)
        exact ⟨r', List.mem_append.mpr (Or.inr (List.mem_singleton.mpr rfl)),
          hra⟩
    · rcases ih ((rolloverFishermanStep kick st r) ) a ⟨r', h, hra⟩ hk with
        hl | hr
      · left
        unfold rolloverFishermanStep at hl
        by_cases hk' : (alookup kick r.account_id).isSome
        · rwa [if_pos hk'] at hl
        · rw [if_neg hk'] at hl
          by_cases hv : (vlookup st.proposals_by_account r.account_id).isSome
          · rwa [if_pos hv] at hl
          · rwa [if_neg hv] at hl
      · exact Or.inr hr

/-- A previous-epoch validator or fisherman that the incoming kickout set
does not name is either an effective proposal or a carried fisherman after
the rollover. -/
theorem rollover_covers (props : List ValidatorStake) (prev : PrevEpochInfo)
    (rew : List (AccountId × Balance))
    (kick : List (AccountId × KickoutReason)) (a : AccountId)
    (hprev : account_is_validator prev a = true ∨
      account_is_fisherman prev a = true)
    (hk : (alookup kick a).isSome = false) :
    hasAccount (proposals_with_rollover props prev rew
      kick).proposals_by_account a ∨
    ∃ v ∈ (proposals_with_rollover props prev rew kick).fishermen,
      v.account_id = a := by
  unfold proposals_with_rollover
  rcases hprev with hval | hfish
  · left
    rw [rollover_fisherman_fold_props]
    refine rollover_validator_fold_covers rew kick prev.validators _ a ?_ hk
    obtain ⟨r, hr, hra⟩ := List.any_eq_true.mp hval
    exact ⟨r, hr, of_decide_eq_true hra⟩
  · obtain ⟨r, hr, hra⟩ := List.any_eq_true.mp hfish
    rcases rollover_fisherman_fold_covers kick prev.fishermen _ a
      ⟨r, hr, of_decide_eq_true hra⟩ hk with hl | hrr
    · left
      rw [rollover_fisherman_fold_props]
      exact hl
    · exact Or.inr hrr

/-! ### Validator-numbering lemmas -/

/-- The inner numbering fold only appends to `all_validators`. -/
theorem numbering_inner_shape :
    ∀ (s : List ValidatorStake) (stp : NumberingState × List Nat),
    ∃ app, (s.foldl numberStep stp).1.all_validators =
      stp.1.all_validators ++ app := by
  intro s
  induction s with
  | nil => intro stp; exact ⟨[], by simp⟩
  | cons v s ih =>
    intro stp
    rw [List.foldl_cons]
    cases hl : alookup stp.1.validator_to_index v.account_id with
    | some id =>
      have hstep : numberStep stp v = (stp.1, stp.2 ++ [id]) := by
        unfold numberStep
        rw [hl]
      rw [hstep]
      exact ih _
    | none =>
      have hstep : numberStep stp v =
          ({ stp.1 with
              all_validators := stp.1.all_validators ++ [v]
              validator_to_index := ainsert stp.1.validator_to_index
                v.account_id stp.1.all_validators.length },
            stp.2 ++ [stp.1.all_validators.length]) := by
        unfold numberStep
        rw [hl]
      rw [hstep]
      obtain ⟨app, happ⟩ := ih ({ stp.1 with
          all_validators := stp.1.all_validators ++ [v]
          validator_to_index := ainsert stp.1.validator_to_index
            v.account_id stp.1.all_validators.length },
        stp.2 ++ [stp.1.all_validators.length])
      refine ⟨v :: app, ?_⟩
      rw [happ]
      simp

/-- Elements added by the inner numbering fold come from the shard list. -/
theorem numbering_inner_mem :
    ∀ (s : List ValidatorStake) (stp : NumberingState × List Nat)
      (v : ValidatorStake),
    v ∈ (s.foldl numberStep stp).1.all_validators →
    v ∈ stp.1.all_validators ∨ v ∈ s := by
  intro s
  induction s with
  | nil => intro stp v h; exact Or.inl h
  | cons w s ih =>
    intro stp v h
    rw [List.foldl_cons] at h
    cases hl : alookup stp.1.validator_to_index w.account_id with
    | some id =>
      rw [show numberStep stp w = (stp.1, stp.2 ++ [id]) from by
        unfold numberStep; rw [hl]] at h
      rcases ih _ v h with h' | h'
      · exact Or.inl h'
      · exact Or.inr (List.mem_cons_of_mem _ h')
    | none =>
      rw [show numberStep stp w =
          ({ stp.1 with
              all_validators := stp.1.all_validators ++ [w]
              validator_to_index := ainsert stp.1.validator_to_index
                w.account_id stp.1.all_validators.length },
            stp.2 ++ [stp.1.all_validators.length]) from by
        unfold numberStep; rw [hl]] at h
      rcases ih _ v h with h' | h'
      · rcases List.mem_append.mp h' with h'' | h''
        · exact Or.inl h''
        · simp only [List.mem_singleton] at h''
          exact Or.inr (h'' ▸ List.mem_cons_self _ _)
      · exact Or.inr (List.mem_cons_of_mem _ h')

/-- The inner numbering fold preserves map well-formedness. -/
theorem numbering_inner_wf :
    ∀ (s : List ValidatorStake) (stp : NumberingState × List Nat),
    vmapWF stp.1 →
    vmapWF (s.foldl numberStep stp).1 := by
  intro s
  induction s with
  | nil => intro stp h; exact h
  | cons v s ih =>
    intro stp hwf
    rw [List.foldl_cons]
    cases hl : alookup stp.1.validator_to_index v.account_id with
    | some id =>
      rw [show numberStep stp v = (stp.1, stp.2 ++ [id]) from by
        unfold numberStep; rw [hl]]
      exact ih _ hwf
    | none =>
      rw [show numberStep stp v =
          ({ stp.1 with
              all_validators := stp.1.all_validators ++ [v]
              validator_to_index := ainsert stp.1.validator_to_index
                v.account_id stp.1.all_validators.length },
            stp.2 ++ [stp.1.all_validators.length]) from by
        unfold numberStep; rw [hl]]
      refine ih _ ?_
      intro a ha
      simp only at ha
      rcases (alookup_ainsert_isSome _ _ _ _).mp ha with h | rfl
      · obtain ⟨w, hw, hwa⟩ := hwf a h
        exact ⟨w, List.mem_append.mpr (Or.inl hw), hwa⟩
      · exact ⟨v, List.mem_append.mpr (Or.inr (List.mem_singleton.mpr rfl)),
          rfl⟩

/-- Every shard-list account is represented in `all_validators` after the
inner numbering fold. -/
theorem numbering_inner_covers :
    ∀ (s : List ValidatorStake) (stp : NumberingState × List Nat),
    vmapWF stp.1 →
    ∀ v ∈ s,
    ∃ w ∈ (s.foldl numberStep stp).1.all_validators,
      w.account_id = v.account_id := by
  intro s
  induction s with
  | nil => intro stp _ v hv; simp at hv
  | cons u s ih =>
    intro stp hwf v hv
    rw [List.foldl_cons]
    rcases List.mem_cons.mp hv with h | h
    · subst h
      cases hl : alookup stp.1.validator_to_index v.account_id with
      | some id =>
        rw [show numberStep stp v = (stp.1, stp.2 ++ [id]) from by
          unfold numberStep; rw [hl]]
        obtain ⟨w, hw, hwa⟩ := hwf v.account_id (by rw [hl]; rfl)
        obtain ⟨app, happ⟩ := numbering_inner_shape s (stp.1, stp.2 ++ [id])
        rw [happ]
        exact ⟨w, List.mem_append.mpr (Or.inl hw), hwa⟩
      | none =>
        rw [show numberStep stp v =
            ({ stp.1 with
                all_validators := stp.1.all_validators ++ [v]
                validator_to_index := ainsert stp.1.validator_to_index
                  v.account_id stp.1.all_validators.length },
              stp.2 ++ [stp.1.all_validators.length]) from by
          unfold numberStep; rw [hl]]
        obtain ⟨app, happ⟩ := numbering_inner_shape s
          ({ stp.1 with
              all_validators := stp.1.all_validators ++ [v]
              validator_to_index := ainsert stp.1.validator_to_index
                v.account_id stp.1.all_validators.length },
            stp.2 ++ [stp.1.all_validators.length])
        rw [happ]
        refine ⟨v, ?_, rfl⟩
        refine List.mem_append.mpr (Or.inl ?_)
        simp
    · cases hl : alookup stp.1.validator_to_index u.account_id with
      | some id =>
        rw [show numberStep stp u = (stp.1, stp.2 ++ [id]) from by
          unfold numberStep; rw [hl]]
        exact ih (stp.1, stp.2 ++ [id]) hwf v h
      | none =>
        rw [show numberStep stp u =
            ({ stp.1 with
                all_validators := stp.1.all_validators ++ [u]
                validator_to_index := ainsert stp.1.validator_to_index
                  u.account_id stp.1.all_validators.length },
              stp.2 ++ [stp.1.all_validators.length]) from by
          unfold numberStep; rw [hl]]
        refine ih _ ?_ v h
        intro a ha
        simp only at ha
        rcases (alookup_ainsert_isSome _ _ _ _).mp ha with h' | rfl
        · obtain ⟨w, hw, hwa⟩ := hwf a h'
          exact ⟨w, List.mem_append.mpr (Or.inl hw), hwa⟩
        · exact ⟨u, List.mem_append.mpr (Or.inr (List.mem_singleton.mpr rfl)),
            rfl⟩

/-- `numberShard` in terms of the inner fold: shape. -/
theorem numberShard_shape (st : NumberingState) (s : List ValidatorStake) :
    ∃ app, (numberShard st s).all_validators = st.all_validators ++ app :=
  numbering_inner_shape s (st, [])

theorem numberShard_mem (st : NumberingState) (s : List ValidatorStake)
    (v : ValidatorStake) (h : v ∈ (numberShard st s).all_validators) :
    v ∈ st.all_validators ∨ v ∈ s :=
  numbering_inner_mem s (st, []) v h

theorem numberShard_wf (st : NumberingState) (s : List ValidatorStake)
    (h : vmapWF st) : vmapWF (numberShard st s) :=
  numbering_inner_wf s (st, []) h

theorem numberShard_covers (st : NumberingState) (s : List ValidatorStake)
    (hwf : vmapWF st) (v : ValidatorStake) (hv : v ∈ s) :
    ∃ w ∈ (numberShard st s).all_validators, w.account_id = v.account_id :=
  numbering_inner_covers s (st, []) hwf v hv

/-- The outer fold over the shard assignment: shape, membership, map
well-formedness and coverage. -/
theorem numbering_fold_shape :
    ∀ (shards : List (List ValidatorStake)) (st : NumberingState),
    ∃ app, (shards.foldl numberShard st).all_validators =
      st.all_validators ++ app := by
  intro shards
  induction shards with
  | nil => intro st; exact ⟨[], by simp⟩
  | cons s shards ih =>
    intro st
    rw [List.foldl_cons]
    obtain ⟨app1, h1⟩ := numberShard_shape st s
    obtain ⟨app2, h2⟩ := ih (numberShard st s)
    exact ⟨app1 ++ app2, by rw [h2, h1, List.append_assoc]⟩

theorem numbering_fold_mem :
    ∀ (shards : List (List ValidatorStake)) (st : NumberingState)
      (v : ValidatorStake),
    v ∈ (shards.foldl numberShard st).all_validators →
    v ∈ st.all_validators ∨ ∃ s ∈ shards, v ∈ s := by
  intro shards
  induction shards with
  | nil => intro st v h; exact Or.inl h
  | cons s shards ih =>
    intro st v h
    rw [List.foldl_cons] at h
    rcases ih _ v h with h' | ⟨s', hs', hvs'⟩
    · rcases numberShard_mem st s v h' with h'' | h''
      · exact Or.inl h''
      · exact Or.inr ⟨s, List.mem_cons_self _ _, h''⟩
    · exact Or.inr ⟨s', List.mem_cons_of_mem _ hs', hvs'⟩

theorem numbering_fold_wf :
    ∀ (shards : List (List ValidatorStake)) (st : NumberingState),
    vmapWF st → vmapWF (shards.foldl numberShard st) := by
  intro shards
  induction shards with
  | nil => intro st h; exact h
  | cons s shards ih =>
    intro st h
    rw [List.foldl_cons]
    exact ih _ (numberShard_wf st s h)

theorem numbering_fold_covers :
    ∀ (shards : List (List ValidatorStake)) (st : NumberingState),
    vmapWF st →
    ∀ s ∈ shards, ∀ v ∈ s,
    ∃ w ∈ (shards.foldl numberShard st).all_validators,
      w.account_id = v.account_id := by
  intro shards
  induction shards with
  | nil => intro st _ s hs; simp at hs
  | cons s0 shards ih =>
    intro st hwf s hs v hv
    rw [List.foldl_cons]
    rcases List.mem_cons.mp hs with h | h
    · subst h
      obtain ⟨w, hw, hwa⟩ := numberShard_covers st s hwf v hv
      obtain ⟨app, happ⟩ := numbering_fold_shape shards (numberShard st s)
      rw [happ]
      exact ⟨w, List.mem_append.mpr (Or.inl hw), hwa⟩
    · exact ih _ (numberShard_wf st s0 hwf) s h v hv

/-! ### Shard-assignment lemmas -/

/-- The arg-min fold stays inside the candidate pool. -/
theorem foldl_argmin_mem (f : Nat → Nat) :
    ∀ (cs : List Nat) (b : Nat),
    (cs.foldl (fun b i => if f i < f b then i else b) b) ∈ b :: cs := by
  intro cs
  induction cs with
  | nil => intro b; exact List.mem_singleton.mpr rfl
  | cons i cs ih =>
    intro b
    rw [List.foldl_cons]
    rcases List.mem_cons.mp (ih (if f i < f b then i else b)) with h | h
    · rw [h]
      by_cases hf : f i < f b
      · rw [if_pos hf]
        exact List.mem_cons_of_mem _ (List.mem_cons_self _ _)
      · rw [if_neg hf]
        exact List.mem_cons_self _ _
    · exact List.mem_cons_of_mem _ (List.mem_cons_of_mem _ h)

/-- On a nonempty shard vector, one greedy step places the producer at some
valid index. -/
theorem assignOne_spec (m : Nat) (shards : List (List ValidatorStake))
    (cp : ValidatorStake) (hlen : 0 < shards.length) :
    ∃ best, best < shards.length ∧
      assignOne m shards cp =
        shards.set best ((shards.getD best []) ++ [cp]) := by
  simp only [assignOne]
  have hsub : ∀ i ∈ (if ((List.range shards.length).filter
      (fun i => (shards.getD i []).length < m)).isEmpty then
        List.range shards.length
      else (List.range shards.length).filter
        (fun i => (shards.getD i []).length < m)), i < shards.length := by
    intro i hi
    by_cases hne : ((List.range shards.length).filter
        (fun i => (shards.getD i []).length < m)).isEmpty
    · rw [if_pos hne] at hi
      exact List.mem_range.mp hi
    · rw [if_neg hne] at hi
      exact List.mem_range.mp (List.mem_filter.mp hi).1
  cases hc : (if ((List.range shards.length).filter
      (fun i => (shards.getD i []).length < m)).isEmpty then
        List.range shards.length
      else (List.range shards.length).filter
        (fun i => (shards.getD i []).length < m)) with
  | nil =>
    exfalso
    by_cases hne : ((List.range shards.length).filter
        (fun i => (shards.getD i []).length < m)).isEmpty
    · rw [if_pos hne] at hc
      rw [List.range_eq_nil] at hc
      omega
    · rw [if_neg hne] at hc
      rw [hc] at hne
      simp at hne
  | cons c cs =>
    refine ⟨cs.foldl (fun b i => if shardLoad (shards.getD i []) <
      shardLoad (shards.getD b []) then i else b) c, ?_, rfl⟩
    apply hsub
    rw [hc]
    exact foldl_argmin_mem _ cs c

/-- One greedy step keeps the shard count. -/
theorem assignOne_length (m : Nat) (shards : List (List ValidatorStake))
    (cp : ValidatorStake) (hlen : 0 < shards.length) :
    (assignOne m shards cp).length = shards.length := by
  obtain ⟨best, _, heq⟩ := assignOne_spec m shards cp hlen
  rw [heq, List.length_set]

/-- Elements after one greedy step: an old shard's element or the placed
producer. -/
theorem assignOne_mem (m : Nat) (shards : List (List ValidatorStake))
    (cp : ValidatorStake) (hlen : 0 < shards.length)
    (s' : List ValidatorStake) (v : ValidatorStake)
    (hs' : s' ∈ assignOne m shards cp) (hv : v ∈ s') :
    (∃ s ∈ shards, v ∈ s) ∨ v = cp := by
  obtain ⟨best, hb, heq⟩ := assignOne_spec m shards cp hlen
  rw [heq] at hs'
  rcases List.mem_or_eq_of_mem_set hs' with h | h
  · exact Or.inl ⟨s', h, hv⟩
  · subst h
    rcases List.mem_append.mp hv with h | h
    · rcases hgd : shards.getD best [] with _ | _
      · rw [hgd] at h
        simp at h
      · refine Or.inl ⟨shards.getD best [], ?_, h⟩
        rw [List.getD_eq_getElem _ _ hb]
        exact List.getElem_mem hb
    · simp only [List.mem_singleton] at h
      exact Or.inr h

/-- A list updated at a valid index contains the written element. -/
theorem list_mem_set_self {α : Type} (l : List α) (i : Nat) (x : α)
    (h : i < l.length) : x ∈ l.set i x := by
  have h' : i < (l.set i x).length := by simpa using h
  have hmem := List.getElem_mem h'
  rwa [List.getElem_set_self h'] at hmem

/-- A producer already placed stays placed across one greedy step. -/
theorem assignOne_pres (m : Nat) (shards : List (List ValidatorStake))
    (cp : ValidatorStake) (hlen : 0 < shards.length) (v : ValidatorStake)
    (h : ∃ s ∈ shards, v ∈ s) :
    ∃ s' ∈ assignOne m shards cp, v ∈ s' := by
  obtain ⟨best, hb, heq⟩ := assignOne_spec m shards cp hlen
  rw [heq]
  obtain ⟨s, hs, hv⟩ := h
  obtain ⟨i, hi, hieq⟩ := List.getElem_of_mem hs
  by_cases hib : i = best
  · subst hib
    refine ⟨(shards.getD i []) ++ [cp], ?_, ?_⟩
    · exact list_mem_set_self _ _ _ hi
    · refine List.mem_append.mpr (Or.inl ?_)
      rw [List.getD_eq_getElem _ _ hi, hieq]
      exact hv
  · refine ⟨s, ?_, hv⟩
    have h2 : i < (shards.set best ((shards.getD best []) ++ [cp])).length :=
      by simpa using hi
    have hmem : (shards.set best ((shards.getD best []) ++ [cp]))[i] ∈
        shards.set best ((shards.getD best []) ++ [cp]) :=
      List.getElem_mem h2
    have hne : (shards.set best ((shards.getD best []) ++ [cp]))[i] =
        shards[i] := List.getElem_set_ne (Ne.symm hib) h2
    rw [hne] at hmem
    rw [← hieq]
    exact hmem

/-- The greedy step places the producer somewhere. -/
theorem assignOne_covers (m : Nat) (shards : List (List ValidatorStake))
    (cp : ValidatorStake) (hlen : 0 < shards.length) :
    ∃ s' ∈ assignOne m shards cp, cp ∈ s' := by
  obtain ⟨best, hb, heq⟩ := assignOne_spec m shards cp hlen
  rw [heq]
  refine ⟨(shards.getD best []) ++ [cp], ?_, ?_⟩
  · exact list_mem_set_self _ _ _ hb
  · exact List.mem_append.mpr (Or.inr (List.mem_singleton.mpr rfl))

/-- The greedy fold keeps the shard count. -/
theorem assign_fold_length (m : Nat) :
    ∀ (cps : List ValidatorStake) (shards : List (List ValidatorStake)),
    0 < shards.length →
    (cps.foldl (assignOne m) shards).length = shards.length := by
  intro cps
  induction cps with
  | nil => intro shards _; rfl
  | cons cp cps ih =>
    intro shards hlen
    rw [List.foldl_cons]
    have h1 := assignOne_length m shards cp hlen
    rw [ih (assignOne m shards cp) (h1.symm ▸ hlen), h1]

/-- Elements of the greedy fold result come from the initial shards or the
placed producers. -/
theorem assign_fold_mem (m : Nat) :
    ∀ (cps : List ValidatorStake) (shards : List (List ValidatorStake)),
    0 < shards.length →
    ∀ (s' : List ValidatorStake) (v : ValidatorStake),
    s' ∈ cps.foldl (assignOne m) shards → v ∈ s' →
    (∃ s ∈ shards, v ∈ s) ∨ v ∈ cps := by
  intro cps
  induction cps with
  | nil => intro shards _ s' v hs' hv; exact Or.inl ⟨s', hs', hv⟩
  | cons cp cps ih =>
    intro shards hlen s' v hs' hv
    rw [List.foldl_cons] at hs'
    rcases ih (assignOne m shards cp)
        ((assignOne_length m shards cp hlen).symm ▸ hlen) s' v hs' hv
      with h | h
    · obtain ⟨s, hs, hvs⟩ := h
      rcases assignOne_mem m shards cp hlen s v hs hvs with h' | h'
      · exact Or.inl h'
      · exact Or.inr (h' ▸ List.mem_cons_self _ _)
    · exact Or.inr (List.mem_cons_of_mem _ h)

/-- A placed producer survives the rest of the greedy fold. -/
theorem assign_fold_pres (m : Nat) :
    ∀ (cps : List ValidatorStake) (shards : List (List ValidatorStake)),
    0 < shards.length → ∀ (v : ValidatorStake),
    (∃ s ∈ shards, v ∈ s) →
    ∃ s' ∈ cps.foldl (assignOne m) shards, v ∈ s' := by
  intro cps
  induction cps with
  | nil => intro shards _ v h; exact h
  | cons cp cps ih =>
    intro shards hlen v h
    rw [List.foldl_cons]
    exact ih _ ((assignOne_length m shards cp hlen).symm ▸ hlen) v
      (assignOne_pres m shards cp hlen v h)

/-- Every producer ends up placed by the greedy fold. -/
theorem assign_fold_covers (m : Nat) :
    ∀ (cps : List ValidatorStake) (shards : List (List ValidatorStake)),
    0 < shards.length → ∀ v ∈ cps,
    ∃ s' ∈ cps.foldl (assignOne m) shards, v ∈ s' := by
  intro cps
  induction cps with
  | nil => intro shards _ v hv; simp at hv
  | cons cp cps ih =>
    intro shards hlen v hv
    rw [List.foldl_cons]
    rcases List.mem_cons.mp hv with h | h
    · subst h
      exact assign_fold_pres m cps _
        ((assignOne_length m shards v hlen).symm ▸ hlen) v
        (assignOne_covers m shards v hlen)
    · exact ih _ ((assignOne_length m shards cp hlen).symm ▸ hlen) v h

/-! ### Leftover-loop lemmas -/

/-- The leftover walk only appends to the fishermen. -/
theorem leftover_fold_fish_mono (cfg : EpochConfigM) (prev : PrevEpochInfo)
    (th : Balance) :
    ∀ (l : List ValidatorStake)
      (st : List ValidatorStake × List (AccountId × Balance) ×
        List (AccountId × KickoutReason)) (a : AccountId),
    (∃ w ∈ st.1, w.account_id = a) →
    ∃ w ∈ (l.foldl (processLeftover cfg prev th) st).1, w.account_id = a := by
  intro l
  induction l with
  | nil => intro st a h; exact h
  | cons p l ih =>
    intro st a h
    rw [List.foldl_cons]
    refine ih _ a ?_
    unfold processLeftover
    by_cases hf : cfg.fishermen_threshold ≤ p.stake
    · rw [if_pos hf]
      obtain ⟨w, hw, hwa⟩ := h
      exact ⟨w, List.mem_append.mpr (Or.inl hw), hwa⟩
    · rw [if_neg hf]
      by_cases hpv : (account_is_validator prev p.account_id ||
          account_is_fisherman prev p.account_id) = true
      · rw [if_pos hpv]
        exact h
      · rw [if_neg hpv]
        exact h

/-- The leftover walk never deletes a kickout entry. -/
theorem leftover_fold_kick_mono (cfg : EpochConfigM) (prev : PrevEpochInfo)
    (th : Balance) :
    ∀ (l : List ValidatorStake)
      (st : List ValidatorStake × List (AccountId × Balance) ×
        List (AccountId × KickoutReason)) (a : AccountId),
    (alookup st.2.2 a).isSome = true →
    (alookup (l.foldl (processLeftover cfg prev th) st).2.2 a).isSome =
      true := by
  intro l
  induction l with
  | nil => intro st a h; exact h
  | cons p l ih =>
    intro st a h
    rw [List.foldl_cons]
    refine ih _ a ?_
    unfold processLeftover
    by_cases hf : cfg.fishermen_threshold ≤ p.stake
    · rw [if_pos hf]
      exact h
    · rw [if_neg hf]
      by_cases hpv : (account_is_validator prev p.account_id ||
          account_is_fisherman prev p.account_id) = true
      · rw [if_pos hpv]
        exact (alookup_ainsert_isSome _ _ _ _).mpr (Or.inl h)
      · rw [if_neg hpv]
        exact h

/-- Every leftover that was a previous-epoch validator or fisherman ends
up among the fishermen or in the kickout map. -/
theorem leftover_fold_covers (cfg : EpochConfigM) (prev : PrevEpochInfo)
    (th : Balance) :
    ∀ (l : List ValidatorStake)
      (st : List ValidatorStake × List (AccountId × Balance) ×
        List (AccountId × KickoutReason)) (v : ValidatorStake),
    v ∈ l →
    (account_is_validator prev v.account_id ||
      account_is_fisherman prev v.account_id) = true →
    (∃ w ∈ (l.foldl (processLeftover cfg prev th) st).1,
      w.account_id = v.account_id) ∨
    (alookup (l.foldl (processLeftover cfg prev th) st).2.2
      v.account_id).isSome = true := by
  intro l
  induction l with
  | nil => intro st v hv; simp at hv
  | cons p l ih =>
    intro st v hv hprev
    rcases List.mem_cons.mp hv with h | h
    · subst h
      rw [List.foldl_cons]
      unfold processLeftover
      by_cases hf : cfg.fishermen_threshold ≤ v.stake
      · rw [if_pos hf]
        refine Or.inl (leftover_fold_fish_mono cfg prev th l _ _ ?_)
        exact ⟨v, List.mem_append.mpr (Or.inr (List.mem_singleton.mpr rfl)),
          rfl⟩
      · rw [if_neg hf, if_pos hprev]
        refine Or.inr (leftover_fold_kick_mono cfg prev th l _ _ ?_)
        exact (alookup_ainsert_isSome _ _ _ _).mpr (Or.inr rfl)
    · rw [List.foldl_cons]
      exact ih _ v h hprev

/-- A present key comes from some entry. -/
theorem alookup_isSome_exists {β : Type} :
    ∀ (l : List (AccountId × β)) (a : AccountId),
    (alookup l a).isSome = true → ∃ p ∈ l, p.1 = a := by
  intro l a
  induction l with
  | nil => intro h; simp [alookup] at h
  | cons p l ih =>
    intro h
    by_cases hp : p.1 = a
    · exact ⟨p, List.mem_cons_self _ _, hp⟩
    · rw [alookup, if_neg hp] at h
      obtain ⟨q, hq, hqa⟩ := ih h
      exact ⟨q, List.mem_cons_of_mem _ hq, hqa⟩

/-- The initial numbering state over the block producers is well-formed. -/
theorem bpState_wf (bps : List ValidatorStake) :
    vmapWF { all_validators := bps
             validator_to_index := bps.enum.map
               (fun p => (p.2.account_id, p.1))
             chunk_producers_settlement := [] } := by
  intro a ha
  obtain ⟨q, hq, hq1⟩ := alookup_isSome_exists _ a ha
  obtain ⟨e, he, heq⟩ := List.mem_map.mp hq
  subst heq
  exact ⟨e.2, List.snd_mem_of_mem_enum he, hq1⟩

/-- Claim C1 (amended): for every configuration with at least one shard,
whenever `proposals_to_epoch_info` (with `FixStakingThreshold` disabled)
returns an `EpochInfo`, every account in the returned validator set has
stake at least `threshold - 1` (the filled-all-seats threshold is one more
than the smallest selected stake, so equality with `threshold` itself fails
— see the counterexample); and every account that was a validator or
fisherman in the previous epoch but is absent from the new validator set
appears among the returned fishermen or in the returned kickout map. -/
theorem c1_threshold_correctness_amended :
    ∀ (cfg : EpochConfigM) (prev : PrevEpochInfo)
      (props : List ValidatorStake)
      (kick : List (AccountId × KickoutReason))
      (rew : List (AccountId × Balance)) (cop : Bool) (info : EpochInfoM),
    0 < cfg.num_shards →
    proposals_to_epoch_info cfg prev props kick rew cop false =
      EpochResult.ok info →
    (∀ v ∈ info.validators, info.seat_price ≤ v.stake + 1) ∧
    (∀ a : AccountId,
      (account_is_validator prev a = true ∨
        account_is_fisherman prev a = true) →
      (∀ w ∈ info.validators, w.account_id ≠ a) →
      (∃ w ∈ info.fishermen, w.account_id = a) ∨
      (alookup info.validator_kickout a).isSome = true) := by
  intro cfg prev props kick rew cop info hn hok
  simp only [proposals_to_epoch_info] at hok
  split at hok
  · exact absurd hok (by simp)
  next bps bp_rest bp_th hbp =>
    split at hok
    · exact absurd hok (by simp)
    next cps cp_rest cp_th hcp =>
      split at hok
      · exact absurd hok (by simp)
      next st hass =>
        injection hok with hinfo
        subst hinfo
        have hsorted : List.Pairwise popsFirst (order_proposals
            (proposals_with_rollover props prev rew
              kick).proposals_by_account) :=
          List.sorted_insertionSort popsFirst _
        unfold select_block_producers at hbp
        obtain ⟨hdec_bp, hbound_bp⟩ := select_validators_stake_bound _ _ _
          hsorted _ _ _ hbp
        cases cop with
        | false =>
          simp only [Bool.false_eq_true, if_false, Option.some.injEq,
            Prod.mk.injEq] at hcp hass
          obtain ⟨hc1, hc2, hc3⟩ := hcp
          subst hc1 hc2 hc3
          split at hass
          · exact absurd hass (by simp)
          next hne =>
            injection hass with hst
            subst hst
            constructor
            · intro v hv
              have hvbps : v ∈ bps := hv
              calc min bp_th bp_th ≤ bp_th := min_le_left _ _
              _ ≤ v.stake + 1 := hbound_bp v hvbps
            · intro a hprev habsent
              by_cases hk : (alookup kick a).isSome = true
              · exact Or.inr (leftover_fold_kick_mono cfg prev _ bp_rest _ a
                  hk)
              · have hk' : (alookup kick a).isSome = false :=
                  Bool.not_eq_true _ ▸ (by simpa using hk)
                rcases rollover_covers props prev rew kick a hprev hk' with
                  hprop | hfish
                · obtain ⟨w, hw, hwa⟩ := hprop
                  have hwsorted : w ∈ order_proposals
                      (proposals_with_rollover props prev rew
                        kick).proposals_by_account :=
                    ((List.perm_insertionSort popsFirst _).mem_iff).mpr hw
                  rw [hdec_bp] at hwsorted
                  rcases List.mem_append.mp hwsorted with hwin | hwrest
                  · exact absurd hwa (habsent w hwin)
                  · have := leftover_fold_covers cfg prev
                      (min bp_th bp_th) bp_rest
                      ((proposals_with_rollover props prev rew kick).fishermen,
                        (proposals_with_rollover props prev rew
                          kick).stake_change, kick) w hwrest
                      (by rw [hwa]
                          rcases hprev with h | h <;> simp [h])
                    rcases this with h | h
                    · exact Or.inl (by rw [← hwa]; exact h)
                    · exact Or.inr (by rw [← hwa]; exact h)
                · exact Or.inl (leftover_fold_fish_mono cfg prev _ bp_rest _ a
                    hfish)
        | true =>
          simp only [if_true] at hcp hass
          unfold select_chunk_producers at hcp
          have hsorted2 := hsorted
          obtain ⟨hdec_cp, hbound_cp⟩ := select_validators_stake_bound _ _ _
            hsorted2 _ _ _ hcp
          split at hass
          · exact absurd hass (by simp)
          next out hout =>
            injection hass with hst
            subst hst
            unfold assign_shards at hout
            split at hout
            · exact absurd hout (by simp)
            next hsize =>
              injection hout with hout'
              subst hout'
              have hrep : 0 < (List.replicate cfg.num_shards
                  ([] : List ValidatorStake)).length := by
                simpa using hn
              constructor
              · intro v hv
                rcases numbering_fold_mem _ _ v hv with hvbps | ⟨s, hs, hvs⟩
                · calc min bp_th cp_th ≤ bp_th := min_le_left _ _
                  _ ≤ v.stake + 1 := hbound_bp v hvbps
                · rcases assign_fold_mem _ cps _ hrep s v hs hvs with
                    ⟨s0, hs0, hvs0⟩ | hvcps
                  · rw [List.eq_of_mem_replicate hs0] at hvs0
                    simp at hvs0
                  · calc min bp_th cp_th ≤ cp_th := min_le_right _ _
                    _ ≤ v.stake + 1 := hbound_cp v hvcps
              · intro a hprev habsent
                by_cases hk : (alookup kick a).isSome = true
                · exact Or.inr (leftover_fold_kick_mono cfg prev _ cp_rest _ a
                    hk)
                · have hk' : (alookup kick a).isSome = false := by
                    simpa using hk
                  rcases rollover_covers props prev rew kick a hprev hk' with
                    hprop | hfish
                  · obtain ⟨w, hw, hwa⟩ := hprop
                    have hwsorted : w ∈ order_proposals
                        (proposals_with_rollover props prev rew
                          kick).proposals_by_account :=
                      ((List.perm_insertionSort popsFirst _).mem_iff).mpr hw
                    rw [hdec_cp] at hwsorted
                    rcases List.mem_append.mp hwsorted with hwin | hwrest
                    · obtain ⟨s, hs, hws⟩ := assign_fold_covers _ cps _ hrep
                        w hwin
                      obtain ⟨x, hx, hxa⟩ := numbering_fold_covers _ _
                        (bpState_wf bps) s hs w hws
                      exact absurd (hxa.trans hwa) (habsent x hx)
                    · have := leftover_fold_covers cfg prev
                        (min bp_th cp_th) cp_rest
                        ((proposals_with_rollover props prev rew
                           kick).fishermen,
                          (proposals_with_rollover props prev rew
                            kick).stake_change, kick) w hwrest
                        (by rw [hwa]
                            rcases hprev with h | h <;> simp [h])
                      rcases this with h | h
                      · exact Or.inl (by rw [← hwa]; exact h)
                      · exact Or.inr (by rw [← hwa]; exact h)
                  · exact Or.inl (leftover_fold_fish_mono cfg prev _ cp_rest
                      _ a hfish)

/-- The selected validators are a front segment of the heap, for any flag
values. -/
theorem select_validators_decomp (props : List ValidatorStake) (maxN : Nat)
    (r : RatioN) (fix : Bool) (sel rest : List ValidatorStake) (th : Nat)
    (h : select_validators props maxN r fix = some (sel, rest, th)) :
    props = sel ++ rest := by
  unfold select_validators at h
  cases hloop : selectLoop r maxN props [] 0 with
  | none => rw [hloop] at h; exact absurd h (by simp)
  | some res =>
    obtain ⟨sel0, rest0, tot0⟩ := res
    rw [hloop] at h
    obtain ⟨⟨taken, h1, h2⟩, _, _⟩ := selectLoop_spec r maxN props [] 0
      (sel0, rest0, tot0) hloop (fun _ => rfl) (by intro p hp; simp at hp)
    simp only [List.reverse_nil, List.nil_append] at h1
    dsimp only at h h1 h2
    subst h1
    by_cases hfill : sel0.length = maxN
    · rw [if_pos hfill] at h
      cases hlast : sel0.getLast? with
      | none => rw [hlast] at h; exact absurd h (by simp)
      | some v =>
        rw [hlast] at h
        simp only [Option.some.injEq, Prod.mk.injEq] at h
        obtain ⟨hsel, hrest, _⟩ := h
        subst hsel hrest
        exact h2
    · rw [if_neg hfill] at h
      cases fix with
      | false =>
        rw [if_neg Bool.false_ne_true] at h
        simp only [Option.some.injEq, Prod.mk.injEq] at h
        obtain ⟨hsel, hrest, _⟩ := h
        subst hsel hrest
        exact h2
      | true =>
        rw [if_pos rfl] at h
        by_cases hr : r.num < r.den
        · rw [if_pos hr] at h
          simp only [Option.some.injEq, Prod.mk.injEq] at h
          obtain ⟨hsel, hrest, _⟩ := h
          subst hsel hrest
          exact h2
        · rw [if_neg hr] at h
          exact absurd h (by simp)

/-- A keyed insert keeps the account list duplicate-free. -/
theorem nodup_accounts_vinsert (l : List ValidatorStake) (w : ValidatorStake)
    (h : (l.map (·.account_id)).Nodup) :
    ((vinsert l w).map (·.account_id)).Nodup := by
  unfold vinsert
  by_cases hany : l.any (fun u => u.account_id = w.account_id)
  · rw [if_pos hany]
    have heq : (l.map (fun u =>
        if u.account_id = w.account_id then w else u)).map (·.account_id) =
        l.map (·.account_id) := by
      rw [List.map_map]
      refine List.map_congr_left ?_
      intro u _
      by_cases huw : u.account_id = w.account_id
      · simp [huw]
      · simp [huw]
    rw [heq]
    exact h
  · rw [if_neg hany, List.map_append]
    rw [List.nodup_append]
    refine ⟨h, List.nodup_singleton _, ?_⟩
    intro x hx1 hx2
    simp only [List.map_cons, List.map_nil, List.mem_singleton] at hx2
    obtain ⟨u, hu, hua⟩ := List.mem_map.mp hx1
    subst hx2
    exact absurd (List.any_eq_true.mpr ⟨u, hu, decide_eq_true hua⟩) hany

/-- The rollover produces duplicate-free accounts. -/
theorem nodup_rollover (props : List ValidatorStake) (prev : PrevEpochInfo)
    (rew : List (AccountId × Balance))
    (kick : List (AccountId × KickoutReason)) :
    (((proposals_with_rollover props prev rew
      kick).proposals_by_account).map (·.account_id)).Nodup := by
  unfold proposals_with_rollover
  have h1 : ∀ (ps : List ValidatorStake) (st : RolloverState),
      (st.proposals_by_account.map (·.account_id)).Nodup →
      (((ps.foldl (rolloverProposalStep kick)
        st).proposals_by_account).map (·.account_id)).Nodup := by
    intro ps
    induction ps with
    | nil => intro st h; exact h
    | cons p ps ih =>
      intro st h
      rw [List.foldl_cons]
      refine ih _ ?_
      unfold rolloverProposalStep
      by_cases hk : (alookup kick p.account_id).isSome
      · rw [if_pos hk]
        exact h
      · rw [if_neg hk]
        exact nodup_accounts_vinsert _ _ h
  have h2 : ∀ (rs : List ValidatorStake) (st : RolloverState),
      (st.proposals_by_account.map (·.account_id)).Nodup →
      (((rs.foldl (rolloverValidatorStep rew kick)
        st).proposals_by_account).map (·.account_id)).Nodup := by
    intro rs
    induction rs with
    | nil => intro st h; exact h
    | cons r rs ih =>
      intro st h
      rw [List.foldl_cons]
      refine ih _ ?_
      unfold rolloverValidatorStep
      by_cases hk : (alookup kick r.account_id).isSome
      · rw [if_pos hk]
        exact h
      · rw [if_neg hk]
        exact nodup_accounts_vinsert _ _ h
  rw [rollover_fisherman_fold_props]
  exact h2 _ _ (h1 _ _ List.nodup_nil)

/-- Claim C2 (amended): the block producers are popped from the proposal
heap in strictly decreasing stake order with ties broken by ascending
account id; `block_producers_settlement` is exactly `0, 1, …` over them and
they form the front of the validators sequence (chunk-only producers are
appended after it in shard-assignment order and need not be globally
sorted — see the counterexample); every settlement id indexes into the
validators; and the selection outcome is a function of its inputs and
flags. -/
theorem c2_order_determinism_amended :
    ∀ (cfg : EpochConfigM) (prev : PrevEpochInfo)
      (props : List ValidatorStake)
      (kick : List (AccountId × KickoutReason))
      (rew : List (AccountId × Balance)) (cop fix : Bool)
      (info : EpochInfoM),
    proposals_to_epoch_info cfg prev props kick rew cop fix =
      EpochResult.ok info →
    (info.block_producers_settlement =
      List.range info.block_producers_settlement.length ∧
     List.Pairwise popsBefore
       (info.validators.take info.block_producers_settlement.length) ∧
     (∀ i ∈ info.block_producers_settlement, i < info.validators.length)) ∧
    proposals_to_epoch_info cfg prev props kick rew cop fix =
      proposals_to_epoch_info cfg prev props kick rew cop fix := by
  intro cfg prev props kick rew cop fix info hok
  refine ⟨?_, rfl⟩
  simp only [proposals_to_epoch_info] at hok
  split at hok
  · exact absurd hok (by simp)
  next bps bp_rest bp_th hbp =>
    split at hok
    · exact absurd hok (by simp)
    next cps cp_rest cp_th hcp =>
      split at hok
      · exact absurd hok (by simp)
      next st hass =>
        injection hok with hinfo
        subst hinfo
        have hsorted : List.Pairwise popsFirst (order_proposals
            (proposals_with_rollover props prev rew
              kick).proposals_by_account) :=
          List.sorted_insertionSort popsFirst _
        unfold select_block_producers at hbp
        have hdec_bp := select_validators_decomp _ _ _ _ _ _ _ hbp
        have hbps_sorted : List.Pairwise popsFirst bps := by
          rw [hdec_bp] at hsorted
          exact (List.pairwise_append.mp hsorted).1
        have hnodup : ((order_proposals (proposals_with_rollover props prev
            rew kick).proposals_by_account).map (·.account_id)).Nodup := by
          refine ((List.perm_insertionSort popsFirst _).map
            (·.account_id)).nodup_iff.mpr ?_
          exact nodup_rollover props prev rew kick
        have hbps_nodup : (bps.map (·.account_id)).Nodup := by
          rw [hdec_bp, List.map_append] at hnodup
          exact (List.nodup_append.mp hnodup).1
        have hbps_strict : List.Pairwise popsBefore bps := by
          have hne : List.Pairwise
              (fun a b : ValidatorStake => a.account_id ≠ b.account_id) bps :=
            List.pairwise_map.mp hbps_nodup
          exact (hbps_sorted.and hne).imp
            (fun h => popsBefore_of_popsFirst h.1 h.2)
        have hshape : ∃ app, st.all_validators = bps ++ app := by
          cases cop with
          | false =>
            simp only [Bool.false_eq_true, if_false] at hass
            split at hass
            · exact absurd hass (by simp)
            · injection hass with hst
              subst hst
              exact ⟨[], by simp⟩
          | true =>
            simp only [if_true] at hass
            split at hass
            · exact absurd hass (by simp)
            next out hout =>
              injection hass with hst
              subst hst
              exact numbering_fold_shape out _
        obtain ⟨app, happ⟩ := hshape
        refine ⟨?_, ?_, ?_⟩
        · simp [List.length_range]
        · have hlen : (List.range bps.length).length = bps.length :=
            List.length_range _
          simp only [hlen, happ, List.take_left]
          exact hbps_strict
        · intro i hi
          simp only [List.mem_range] at hi
          simp only [happ, List.length_append]
          omega

/-- Claim C1 (counterexample): with one seat and proposals `vala`/`valb`
of stake 300 each, the seat fills, the returned threshold is 301, and the
seated validator's stake 300 is strictly below it — the claim's "every
account in the returned validator set has stake ≥ threshold" fails. -/
theorem c1_counterexample :
    epochIsOk (proposals_to_epoch_info c1xConfig c1xPrev c1xProps [] []
      false false) = true ∧
    (epochValidators (proposals_to_epoch_info c1xConfig c1xPrev c1xProps []
      [] false false)).all
      (fun v => decide (epochSeatPrice (proposals_to_epoch_info c1xConfig
        c1xPrev c1xProps [] [] false false) ≤ v.stake)) = false := by
  decide

/-- Witness for C1 on the `c1x` instance. -/
theorem c1_witness :
    (∀ v ∈ c1xInfo.validators, c1xInfo.seat_price ≤ v.stake + 1) ∧
    (∀ a : AccountId,
      (account_is_validator c1xPrev a = true ∨
        account_is_fisherman c1xPrev a = true) →
      (∀ w ∈ c1xInfo.validators, w.account_id ≠ a) →
      (∃ w ∈ c1xInfo.fishermen, w.account_id = a) ∨
      (alookup c1xInfo.validator_kickout a).isSome = true) :=
  c1_threshold_correctness_amended c1xConfig c1xPrev c1xProps [] [] false
    c1xInfo (by decide) (by decide)

/-- Claim C2 (counterexample): with two shards and chunk-only producers the
validators sequence is `va(5), vd(2), vb(4), vc(3)` — the chunk-only
producers are appended in shard-assignment order, so the sequence is not in
strictly decreasing stake order. -/
theorem c2_counterexample :
    epochIsOk (proposals_to_epoch_info c2xConfig c2xPrev c2xProps [] []
      true false) = true ∧
    decide (List.Pairwise popsBefore (epochValidators
      (proposals_to_epoch_info c2xConfig c2xPrev c2xProps [] [] true
        false))) = false := by
  decide

/-- Witness for C2 on the `c1x` instance. -/
theorem c2_witness :
    (c1xInfo.block_producers_settlement =
      List.range c1xInfo.block_producers_settlement.length ∧
     List.Pairwise popsBefore
       (c1xInfo.validators.take c1xInfo.block_producers_settlement.length) ∧
     (∀ i ∈ c1xInfo.block_producers_settlement,
       i < c1xInfo.validators.length)) ∧
    proposals_to_epoch_info c1xConfig c1xPrev c1xProps [] [] false false =
      proposals_to_epoch_info c1xConfig c1xPrev c1xProps [] [] false false :=
  c2_order_determinism_amended c1xConfig c1xPrev c1xProps [] [] false false
    c1xInfo (by decide)

/-- Witness for C8: one matching trie/flat pair verifies successfully. -/
theorem c8_witness :
    verify (fun v => v.sum) [([0], [1])]
        [([0], FlatStateValue.inlined [1])] =
      VerifyOutcome.success (min 1 1) :=
  ((c8_verify_success_iff_agreement (fun v => v.sum) [([0], [1])]
      [([0], FlatStateValue.inlined [1])]).1).mpr (by
    intro p hp
    simp only [List.zip_cons_cons, List.zip_nil_left,
      List.mem_singleton] at hp
    subst hp
    exact ⟨rfl, rfl, rfl⟩)

/-- Witness for C9: a surplus flat entry beyond the trie iterator's end is
ignored; the run succeeds with one verified node. -/
theorem c9_witness :
    verify (fun v => v.sum) [([0], [1])]
        [([0], FlatStateValue.inlined [1]),
         ([2], FlatStateValue.inlined [3])] =
      VerifyOutcome.success (min 1 2) ∧
    verify (fun v => v.sum) [([0], [1])]
        [([0], FlatStateValue.inlined [1]),
         ([2], FlatStateValue.inlined [3])] =
      verify (fun v => v.sum) ([([0], [1])].take (min 1 2))
        ([([0], FlatStateValue.inlined [1]),
          ([2], FlatStateValue.inlined [3])].take (min 1 2)) :=
  c9_verify_ignores_surplus (fun v => v.sum) [([0], [1])]
    [([0], FlatStateValue.inlined [1]), ([2], FlatStateValue.inlined [3])]
    (by decide) (by
      intro p hp
      simp only [List.zip_cons_cons, List.zip_nil_left,
        List.mem_singleton] at hp
      subst hp
      exact ⟨rfl, rfl, rfl⟩)

end NearCore